import Mathlib

/-!
# Verification of the flowmind plan validator and executor

A shallow embedding of `core/plan_validator.py` and `core/executor.py`.
JSON-like Python values are modelled by `Value`; Python dicts are association
lists with unique keys (dicts built by the code itself from possibly
duplicated sources use `pyInsert`/`pyDict`, which reproduce Python's
last-write-wins update with first-insertion key order).  Fallible code paths
(places where the Python would raise an uncaught exception on inputs outside
the validated contract) are modelled with `Option`.
-/

set_option maxHeartbeats 1000000

/-- JSON-like values as handled by the Python code. -/
inductive Value where
  | null : Value
  | bool : Bool → Value
  | num : Int → Value
  | str : String → Value
  | arr : List Value → Value
  | obj : List (String × Value) → Value

/-- Python truthiness of a value (`if not x`). -/
def pyTruthy : Value → Bool
  | .null => false
  | .bool b => b
  | .num n => n != 0
  | .str s => s != ""
  | .arr l => !l.isEmpty
  | .obj m => !m.isEmpty

/-- Python `x or d` applied to the result of `dict.get` (absent key gives `None`). -/
def pyOrDefault (o : Option Value) (d : Value) : Value :=
  match o with
  | some v => if pyTruthy v then v else d
  | none => d

/-- Python dict assignment `m[k] = v`: overwrite in place if the key exists,
otherwise append at the end (insertion order). -/
def pyInsert (m : List (String × α)) (k : String) (v : α) : List (String × α) :=
  if (m.lookup k).isSome then m.map (fun p => if p.1 = k then (k, v) else p)
  else m ++ [(k, v)]

/-- Build a Python dict from a list of key-value pairs (comprehension semantics:
first-occurrence key order, last-written value wins). -/
def pyDict (l : List (String × α)) : List (String × α) :=
  l.foldl (fun m p => pyInsert m p.1 p.2) []

/-- Whitespace characters stripped by Python `str.strip` (the ASCII ones;
plans are JSON so no other whitespace occurs). -/
def isPyWS (c : Char) : Bool :=
  c == ' ' || c == '\t' || c == '\n' || c == '\r' || c == Char.ofNat 11 || c == Char.ofNat 12

/-- Python `str.strip()`: drop whitespace from both ends (structurally
recursive so that concrete runs reduce inside proofs). -/
def pyStrip (s : String) : String :=
  String.mk (((s.data.dropWhile isPyWS).reverse.dropWhile isPyWS).reverse)

/-- The `\x7b` character (written by code to avoid a brace in a literal). -/
def lbraceChar : Char := Char.ofNat 123

/-- The `\x7d` character. -/
def rbraceChar : Char := Char.ofNat 125

/-- Match of `REF_PATTERN` = `^\$\{([^}.]+)\.outputs\.([^}]+)\}$` on a list of
characters: dollar, open brace, a nonempty first group without dot or closing
brace, the literal `.outputs.`, a nonempty second group without closing brace,
then a closing brace ending the string.  The regex parse is deterministic:
group 1 must stop at the first dot, and group 2 must run to the final brace. -/
def refMatchChars (cs : List Char) : Option (String × String) :=
  match cs with
  | '$' :: c1 :: rest =>
    if c1 = lbraceChar then
      let g1 := rest.takeWhile (fun c => c != '.' && c != rbraceChar)
      if g1.isEmpty then none
      else
        match rest.drop g1.length with
        | '.' :: r2 =>
          if r2.take 8 = "outputs.".toList then
            match (r2.drop 8).reverse with
            | c :: g2rev =>
              if c = rbraceChar && !g2rev.isEmpty && !g2rev.contains rbraceChar then
                some (String.mk g1, String.mk g2rev.reverse)
              else none
            | [] => none
          else none
        | _ => none
    else none
  | _ => none

/-- `_parse_ref`: match the reference pattern against the trimmed string. -/
def parse_ref (value : String) : Option (String × String) :=
  refMatchChars (pyStrip value).data

/-- `_is_ref`: a value is a reference expression iff it is a string matching
`REF_PATTERN` after trimming. -/
def is_ref (v : Value) : Bool :=
  match v with
  | .str s => (parse_ref s).isSome
  | _ => false

/-- A declared capability input (`{name, required, ...}` registry entries;
the registry is well-formed, so names are strings and `required` a bool). -/
structure AtomInput where
  name : String
  required : Bool
deriving DecidableEq

/-- A capability definition from the registry: declared inputs and declared
output names. -/
structure AtomDef where
  inputs : List AtomInput
  outputs : List String
deriving DecidableEq

/-- The read-only atoms registry: atom id to definition (`dict.get`). -/
def Registry := String → Option AtomDef

/-- A validation error record `{code, message, path}`. -/
structure VError where
  code : String
  message : String
  path : String
deriving DecidableEq

/-- The two shapes `validate_plan` returns: `{valid: False, errors}` or
`{valid: True, warnings, execution_order}` (no `execution_order` key in the
invalid shape). -/
inductive VResult where
  | invalid (errors : List VError)
  | valid (warnings : List VError) (execution_order : List String)
deriving DecidableEq

/-- Python `repr` of a string (names and ids in error messages; quoting of
ordinary identifier-like strings). -/
def pyReprStr (s : String) : String := "\x27" ++ s ++ "\x27"

/-- Python `repr` restricted to the value shapes that can reach an error
message through the validator (strings on all paths that survive the schema
stage). -/
def pyRepr : Value → String
  | .str s => pyReprStr s
  | .null => "None"
  | .bool true => "True"
  | .bool false => "False"
  | .num n => toString n
  | .arr _ => "[...]"
  | .obj _ => "dict"

/-! ## Schema stage (validate_plan lines 51-77) -/

/-- Root `target` and `plan` checks (lines 55-62). -/
def targetPlanErrors (doc : List (String × Value)) : List VError :=
  (match doc.lookup "target" with
   | none => [⟨"MISSING_FIELD", "Missing required field \x27target\x27", "target"⟩]
   | some (.str _) => []
   | some _ => [⟨"INVALID_TYPE", "Field \x27target\x27 must be a string", "target"⟩])
  ++ (match doc.lookup "plan" with
   | none => [⟨"MISSING_FIELD", "Missing required field \x27plan\x27", "plan"⟩]
   | some (.obj _) => []
   | some _ => [⟨"INVALID_TYPE", "Field \x27plan\x27 must be an object", "plan"⟩])

/-- `plan` as a dict, defaulting to empty when absent or not an object
(line 65: `raw_plan if isinstance(raw_plan, dict) else {}`). -/
def planObjOf (doc : List (String × Value)) : List (String × Value) :=
  match doc.lookup "plan" with
  | some (.obj p) => p
  | _ => []

/-- `plan.steps` checks (lines 69-74).  `plan.get("steps")` yields `None` both
for an absent key and an explicit null, so both report `MISSING_FIELD`. -/
def stepsFieldErrors (steps? : Option Value) : List VError :=
  match steps? with
  | none => [⟨"MISSING_FIELD", "Missing required field \x27plan.steps\x27", "plan.steps"⟩]
  | some .null => [⟨"MISSING_FIELD", "Missing required field \x27plan.steps\x27", "plan.steps"⟩]
  | some (.arr l) =>
      if l.isEmpty then [⟨"EMPTY_STEPS", "plan.steps must not be empty", "plan.steps"⟩] else []
  | some _ => [⟨"INVALID_TYPE", "Field \x27plan.steps\x27 must be an array", "plan.steps"⟩]

/-- The steps list used by all later stages (empty unless an array). -/
def stepsOfPlan (p : List (String × Value)) : List Value :=
  match p.lookup "steps" with
  | some (.arr l) => l
  | _ => []

/-- Per-step schema checks (lines 83-106). -/
def stepSchemaErrors (i : Nat) (step : Value) : List VError :=
  let base := "plan.steps[" ++ toString i ++ "]"
  match step with
  | .obj s =>
    (match s.lookup "id" with
     | none => [⟨"MISSING_FIELD", "Step must have \x27id\x27 (atom id)", base ++ ".id"⟩]
     | some (.str _) => []
     | some _ => [⟨"INVALID_TYPE", "Step \x27id\x27 must be a string", base ++ ".id"⟩])
    ++ (match s.lookup "target" with
     | none => [⟨"MISSING_FIELD", "Step must have \x27target\x27", base ++ ".target"⟩]
     | some (.str _) => []
     | some _ => [⟨"INVALID_TYPE", "Step \x27target\x27 must be a string", base ++ ".target"⟩])
    ++ (match s.lookup "inputs" with
     | none => [⟨"MISSING_FIELD", "Step must have \x27inputs\x27", base ++ ".inputs"⟩]
     | some (.obj _) => []
     | some _ => [⟨"INVALID_TYPE", "Step \x27inputs\x27 must be an object", base ++ ".inputs"⟩])
    ++ (match s.lookup "step_id" with
     | none => []
     | some (.str sid) =>
         if pyStrip sid = "" then
           [⟨"EMPTY_STEP_ID", "Step \x27step_id\x27 must not be empty", base ++ ".step_id"⟩]
         else []
     | some _ => [⟨"INVALID_TYPE", "Step \x27step_id\x27 must be a string", base ++ ".step_id"⟩])
    ++ (match s.lookup "depends_on" with
     | none => []
     | some (.arr _) => []
     | some _ => [⟨"INVALID_TYPE", "Step \x27depends_on\x27 must be an array", base ++ ".depends_on"⟩])
  | _ => [⟨"INVALID_TYPE", "Step must be an object", base⟩]

/-- `plan.outputs` check (lines 110-111). -/
def outputsError (plan : List (String × Value)) : List VError :=
  match plan.lookup "outputs" with
  | none => []
  | some .null => []
  | some (.obj _) => []
  | some _ => [⟨"INVALID_TYPE", "Field \x27plan.outputs\x27 must be an object", "plan.outputs"⟩]

/-- Stage collecting per-step schema errors and the `plan.outputs` error
(lines 80-111; both run before the return at line 114). -/
def schemaStageErrors (steps : List Value) (plan : List (String × Value)) : List VError :=
  (steps.enum.map (fun p => stepSchemaErrors p.1 p.2)).flatten ++ outputsError plan

/-! ## Identity stage (lines 32-36, 80-124) -/

/-- `_step_identifier`: trimmed non-empty `step_id`, else the stringified index. -/
def step_identifier (step : Value) (index : Nat) : String :=
  match step with
  | .obj s =>
    match s.lookup "step_id" with
    | some (.str sid) => if pyStrip sid = "" then toString index else pyStrip sid
    | _ => toString index
  | _ => toString index

/-- The collected `step_ids` (line 107; non-dict steps are skipped by the
`continue` at line 85, which can only happen when the stage errors anyway). -/
def stepIdsOf (steps : List Value) : List String :=
  steps.enum.filterMap (fun p =>
    match p.2 with
    | .obj _ => some (step_identifier p.2 p.1)
    | _ => none)

/-- Duplicate detection with a running `seen` set (lines 117-121). -/
def dupErrsAux : List (Nat × String) → List String → List VError
  | [], _ => []
  | (i, sid) :: rest, seen =>
    (if sid ∈ seen then
       [⟨"DUPLICATE_STEP_ID", "Duplicate step_id: \x27" ++ sid ++ "\x27",
         "plan.steps[" ++ toString i ++ "].step_id"⟩]
     else [])
    ++ dupErrsAux rest (seen ++ [sid])

/-- `DUPLICATE_STEP_ID` errors for the whole id list. -/
def duplicateErrors (ids : List String) : List VError := dupErrsAux ids.enum []

/-- `id_to_index` (line 124): dict comprehension, so the last index with a
given id wins. -/
def idToIndex (ids : List String) (sid : String) : Option Nat :=
  ids.enum.foldl (fun acc p => if p.2 = sid then some p.1 else acc) none

/-! ## Atom binding stage (lines 127-152) -/

/-- `atom_inputs` (line 138): dict of declared inputs keyed by name, keeping
entries with a truthy (non-empty) name. -/
def atomInputMap (atom : AtomDef) : List (String × AtomInput) :=
  pyDict ((atom.inputs.filter (fun d => d.name != "")).map (fun d => (d.name, d)))

/-- `atom_outputs` (line 139): declared output names with truthy names. -/
def atomOutputs (atom : AtomDef) : List String :=
  atom.outputs.filter (fun s => s != "")

/-- The `MISSING_REQUIRED_INPUT` error for an input absent from the step
(line 148). -/
def missingInputErr (base name : String) : VError :=
  ⟨"MISSING_REQUIRED_INPUT", "Required input " ++ pyReprStr name ++ " is missing",
   base ++ ".inputs"⟩

/-- The `MISSING_REQUIRED_INPUT` error for a present but valueless input
(line 152). -/
def noValueInputErr (base name : String) : VError :=
  ⟨"MISSING_REQUIRED_INPUT", "Required input " ++ pyReprStr name ++ " has no value",
   base ++ ".inputs." ++ name⟩

/-- The `UNKNOWN_INPUT_FIELD` error (line 145). -/
def unknownFieldErr (base atom_id key : String) : VError :=
  ⟨"UNKNOWN_INPUT_FIELD", "Unknown input field " ++ pyReprStr key ++ " for atom " ++ atom_id,
   base ++ ".inputs." ++ key⟩

/-- Line 151: the value of a present required input counts as missing when it
is null, or a string that trims to empty and is not a reference expression. -/
def isNoValue (v : Value) : Bool :=
  match v with
  | .null => true
  | .str s => pyStrip s == "" && !(is_ref (.str s))
  | _ => false

/-- The required-input errors for one step (lines 146-152), in declared-input
iteration order. -/
def requiredInputErrors (base : String) (atom : AtomDef)
    (inputs : List (String × Value)) : List VError :=
  (atomInputMap atom).flatMap (fun p =>
    if p.2.required then
      match inputs.lookup p.1 with
      | none => [missingInputErr base p.1]
      | some v => if isNoValue v then [noValueInputErr base p.1] else []
    else [])

/-- The atom-binding errors for one step dict (lines 131-152). -/
def stepAtomErrors (base : String) (reg : Registry) (s : List (String × Value)) :
    List VError :=
  match s.lookup "id" with
  | none => []
  | some idv =>
    if pyTruthy idv then
      match idv with
      | .str atom_id =>
        match reg atom_id with
        | none => [⟨"UNKNOWN_ATOM_ID", "Unknown atom id: " ++ pyReprStr atom_id, base ++ ".id"⟩]
        | some atom =>
          match pyOrDefault (s.lookup "inputs") (.obj []) with
          | .obj inputs =>
            ((inputs.map Prod.fst).filter
                (fun k => !((atomInputMap atom).lookup k).isSome)).map
              (unknownFieldErr base atom_id)
            ++ requiredInputErrors base atom inputs
          | _ => []
      | _ =>
        -- unreachable once the schema stage has passed (ids are strings there)
        [⟨"UNKNOWN_ATOM_ID", "Unknown atom id: " ++ pyRepr idv, base ++ ".id"⟩]
    else []

/-- The whole atom-binding stage (lines 127-152). -/
def atomStageErrors (reg : Registry) (steps : List Value) : List VError :=
  (steps.enum.map (fun p =>
    match p.2 with
    | .obj s => stepAtomErrors ("plan.steps[" ++ toString p.1 ++ "]") reg s
    | _ => [])).flatten

/-! ## Dependency graph construction (lines 154-195) -/

/-- Adjacency-list graph on step indices, keyed like the Python `defaultdict`. -/
abbrev Graph := List (Nat × List Nat)

/-- `graph.get(u, [])` / `graph[u]` read access. -/
def adjOf (g : Graph) (u : Nat) : List Nat := (g.lookup u).getD []

/-- `graph[u].append(v)` on the defaultdict: extend the existing adjacency
list, or create the key. -/
def addEdge (g : Graph) (u v : Nat) : Graph :=
  if (g.lookup u).isSome then g.map (fun p => if p.1 = u then (p.1, p.2 ++ [v]) else p)
  else g ++ [(u, [v])]

/-- The `UNKNOWN_DEPENDENCY` error (line 168). -/
def unknownDepErr (i : Nat) (dep : String) : VError :=
  ⟨"UNKNOWN_DEPENDENCY", "Unknown dependency step_id: " ++ pyReprStr dep,
   "plan.steps[" ++ toString i ++ "].depends_on"⟩

/-- The `UNKNOWN_STEP_REF` error (line 184). -/
def unknownStepRefErr (i : Nat) (ref_sid : String) : VError :=
  ⟨"UNKNOWN_STEP_REF", "Unknown step reference: " ++ pyReprStr ref_sid,
   "plan.steps[" ++ toString i ++ "].inputs"⟩

/-- The `UNKNOWN_OUTPUT_FIELD` error (line 190). -/
def unknownOutputErr (i : Nat) (ref_sid out_name : String) : VError :=
  ⟨"UNKNOWN_OUTPUT_FIELD",
   "Atom for step " ++ pyReprStr ref_sid ++ " has no output " ++ pyReprStr out_name,
   "plan.steps[" ++ toString i ++ "].inputs"⟩

/-- Explicit `depends_on` edges for step `i` (lines 163-172); non-string
entries are skipped, unknown ids error, known ids add edge `dep -> i`. -/
def depEdges (ids : List String) (i : Nat) : List Value → Graph → Graph × List VError
  | [], g => (g, [])
  | dep :: rest, g =>
    match dep with
    | .str dstr =>
      match idToIndex ids (pyStrip dstr) with
      | none =>
        let r := depEdges ids i rest g
        (r.1, unknownDepErr i (pyStrip dstr) :: r.2)
      | some j => depEdges ids i rest (addEdge g j i)
    | _ => depEdges ids i rest g

/-- `(steps[ref_index] or {}).get("id") or ""` (line 187); the referenced step
is a dict whenever this stage is reached. -/
def refAtomIdOf (steps : List Value) (ref_index : Nat) : String :=
  match steps.get? ref_index with
  | some (.obj s2) =>
    match s2.lookup "id" with
    | some v => if pyTruthy v then (match v with | .str a => a | _ => "") else ""
    | none => ""
  | _ => ""

/-- Implicit data-flow edges from reference-expression inputs of step `i`
(lines 173-195).  A previously present edge is not duplicated (line 193: the
membership test on the defaultdict reduces to membership in the adjacency
list, a missing key giving the empty list). -/
def refEdges (reg : Registry) (steps : List Value) (ids : List String) (i : Nat) :
    List (String × Value) → Graph → Graph × List VError
  | [], g => (g, [])
  | (_key, val) :: rest, g =>
    if is_ref val then
      match val with
      | .str s =>
        match parse_ref s with
        | some (ref_sid, out_name) =>
          match idToIndex ids ref_sid with
          | none =>
            let r := refEdges reg steps ids i rest g
            (r.1, unknownStepRefErr i ref_sid :: r.2)
          | some ref_index =>
            let ref_outputs :=
              match reg (refAtomIdOf steps ref_index) with
              | some ra => atomOutputs ra
              | none => []
            if out_name ∈ ref_outputs then
              refEdges reg steps ids i rest
                (if i ∈ adjOf g ref_index then g else addEdge g ref_index i)
            else
              let r := refEdges reg steps ids i rest g
              (r.1, unknownOutputErr i ref_sid out_name :: r.2)
        | none => refEdges reg steps ids i rest g
      | _ => refEdges reg steps ids i rest g
    else refEdges reg steps ids i rest g

/-- The `depends_on` list of a step (`step.get("depends_on") or []`;
the schema stage guarantees an array when present). -/
def stepDeps (step : Value) : List Value :=
  match step with
  | .obj s =>
    match pyOrDefault (s.lookup "depends_on") (.arr []) with
    | .arr l => l
    | _ => []
  | _ => []

/-- The inputs mapping of a step (`step.get("inputs") or {}`; the schema
stage guarantees an object when present). -/
def stepInputsOf (step : Value) : List (String × Value) :=
  match step with
  | .obj s =>
    match pyOrDefault (s.lookup "inputs") (.obj []) with
    | .obj m => m
    | _ => []
  | _ => []

/-- Graph contribution of one step: explicit edges, then reference edges.
The first `in_degree` accumulation of the source (lines 157, 172, 195) is
dead state: it is recomputed from the graph at line 202 before the sort. -/
def stepGraph (reg : Registry) (steps : List Value) (ids : List String)
    (i : Nat) (step : Value) (g : Graph) : Graph × List VError :=
  match step with
  | .obj _ =>
    let r1 := depEdges ids i (stepDeps step) g
    let r2 := refEdges reg steps ids i (stepInputsOf step) r1.1
    (r2.1, r1.2 ++ r2.2)
  | _ => (g, [])

/-- The full dependency graph and the errors found while building it
(lines 159-195). -/
def buildGraph (reg : Registry) (steps : List Value) (ids : List String) :
    Graph × List VError :=
  steps.enum.foldl (fun acc p =>
    let r := stepGraph reg steps ids p.1 p.2 acc.1
    (r.1, acc.2 ++ r.2)) ([], [])

/-! ## Topological sort (lines 200-222) -/

/-- Recomputed in-degree (lines 202-205): number of graph edges into `v`. -/
def inDegreeOf (g : Graph) (v : Nat) : Int :=
  (g.map (fun p => ((p.2.count v : Nat) : Int))).sum

/-- Processing the successors of a dequeued node (lines 211-214): decrement
each in-degree in list order and append nodes reaching zero to the queue. -/
def relax : List Nat → (Nat → Int) → List Nat → (Nat → Int) × List Nat
  | [], indeg, queue => (indeg, queue)
  | v :: vs, indeg, queue =>
    let d := indeg v - 1
    relax vs (fun w => if w = v then d else indeg w) (if d = 0 then queue ++ [v] else queue)

/-- The `while queue` loop (lines 208-214) with explicit fuel.  The loop pops
the queue front, appends it to the order and relaxes its successors; fuel
`n + 1` always suffices because the order grows by one distinct node below
`n` per iteration (proved below). -/
def kahnLoop (g : Graph) : Nat → List Nat → (Nat → Int) → List Nat → List Nat
  | 0, _, _, order => order
  | Nat.succ _, [], _, order => order
  | Nat.succ fuel, u :: rest, indeg, order =>
    let r := relax (adjOf g u) indeg rest
    kahnLoop g fuel r.2 r.1 (order ++ [u])

/-- Kahn's algorithm (lines 202-214): seed the FIFO queue with the
zero-in-degree nodes in declaration order, then run the loop. -/
def kahnSort (g : Graph) (n : Nat) : List Nat :=
  kahnLoop g (n + 1)
    ((List.range n).filter (fun i => inDegreeOf g i == 0))
    (fun v => inDegreeOf g v) []

/-- Python `repr` of a list of strings, as interpolated at line 218. -/
def pyListReprStr (l : List String) : String :=
  "[" ++ String.intercalate ", " (l.map pyReprStr) ++ "]"

/-- The `CIRCULAR_DEPENDENCY` message (line 218). -/
def circularMsg (cyc : List String) : String :=
  "Circular dependency among steps: " ++ pyListReprStr cyc

/-- Cycle check and final result (lines 215-222). -/
def topoStage (g : Graph) (n : Nat) (ids : List String) : VResult :=
  let order := kahnSort g n
  if order.length = n then
    .valid [] (order.map (fun i => ids.getD i ""))
  else
    .invalid [⟨"CIRCULAR_DEPENDENCY",
      circularMsg (((List.range n).filter (fun i => decide (i ∉ order))).map
        (fun i => ids.getD i "")),
      "plan.steps"⟩]

/-- `validate_plan` (lines 39-222). -/
def validate_plan (plan_doc : Value) (reg : Registry) : VResult :=
  match plan_doc with
  | .obj doc =>
    let plan := planObjOf doc
    let steps := stepsOfPlan plan
    let e12 := targetPlanErrors doc ++ stepsFieldErrors (plan.lookup "steps")
    if e12.isEmpty then
      let e34 := schemaStageErrors steps plan
      if e34.isEmpty then
        let ids := stepIdsOf steps
        let ge := buildGraph reg steps ids
        let eSem := duplicateErrors ids ++ atomStageErrors reg steps ++ ge.2
        if eSem.isEmpty then topoStage ge.1 steps.length ids
        else .invalid eSem
      else .invalid e34
    else .invalid e12
  | _ => .invalid [⟨"INVALID_TYPE", "Plan document must be an object", ""⟩]

/-! ## Executor (core/executor.py) -/

/-- A step result dict `{step_id, atom_id, status, outputs, error}`. -/
structure StepResult where
  step_id : String
  atom_id : String
  status : String
  outputs : List (String × Value)
  error : Option String

/-- The result of `execute`: `{success, step_results, error?}`. -/
structure ExecutionResult where
  success : Bool
  step_results : List StepResult
  error : Option String

/-- A structured `ExecutorError` with code and message. -/
structure ExecutorError where
  code : String
  message : String

/-- An exception raised by an invoked atom function: its type name and message
(as caught at executor lines 75-79). -/
structure PyExc where
  type_name : String
  message : String

/-- An invocable atom action: resolved keyword inputs to a return value or a
raised exception.  Binding errors of the call itself (bad keywords) surface as
exceptions and are covered by the same catch. -/
def ActionFn := List (String × Value) → Except PyExc Value

/-- The dynamic dispatch environment abstracting `importlib` and `getattr`
(executor lines 140-153): which atom ids resolve to a callable. -/
def ActionEnv := String → Option ActionFn

/-- `_step_failure` (lines 217-224). -/
def step_failure (step_id atom_id code message : String) : StepResult :=
  ⟨step_id, atom_id, "failed", [], some ("[" ++ code ++ "] " ++ message)⟩

/-- `_resolve_callable` (lines 121-154): ids with fewer than three dot-parts
are rejected, then the environment decides whether module import and
attribute lookup succeed. -/
def resolve_callable (env : ActionEnv) (atom_id : String) : Except ExecutorError ActionFn :=
  if atom_id.data.count '.' + 1 < 3 then
    .error ⟨"UNRESOLVED_ATOM",
      "Atom ID \x27" ++ atom_id ++ "\x27 does not follow package.domain.action convention"⟩
  else
    match env atom_id with
    | some fn => .ok fn
    | none => .error ⟨"UNRESOLVED_ATOM",
        "Cannot resolve a callable for atom \x27" ++ atom_id ++ "\x27"⟩

/-- `_resolve_inputs` (lines 157-185): substitute reference expressions from
the context, pass every other value through unchanged. -/
def resolve_inputs :
    List (String × Value) → List (String × List (String × Value)) →
    List (String × Value) → Except ExecutorError (List (String × Value))
  | [], _, resolved => .ok resolved
  | (key, value) :: rest, context, resolved =>
    match value with
    | .str s =>
      match parse_ref s with
      | some (ref_step_id, output_name) =>
        match context.lookup ref_step_id with
        | none => .error ⟨"UNRESOLVED_REF",
            "Reference \x27" ++ s ++ "\x27: step \x27" ++ ref_step_id ++
            "\x27 has no outputs in context"⟩
        | some step_outputs =>
          match step_outputs.lookup output_name with
          | none => .error ⟨"UNRESOLVED_REF",
              "Reference \x27" ++ s ++ "\x27: step \x27" ++ ref_step_id ++
              "\x27 has no output \x27" ++ output_name ++ "\x27"⟩
          | some ov => resolve_inputs rest context (pyInsert resolved key ov)
      | none => resolve_inputs rest context (pyInsert resolved key value)
    | _ => resolve_inputs rest context (pyInsert resolved key value)

/-- `_map_outputs` (lines 188-214). -/
def map_outputs (return_value : Value) (atom_def : Option AtomDef) :
    List (String × Value) :=
  match atom_def with
  | none => []
  | some a =>
    match atomOutputs a with
    | [] => []
    | [o] => [(o, return_value)]
    | o :: _ :: _ =>
      match return_value with
      | .obj m => pyDict ((atomOutputs a).map (fun nm => (nm, (m.lookup nm).getD .null)))
      | _ => [(o, return_value)]

/-- `_build_step_lookup` (lines 109-118): effective id to the step dict, with
last-wins dict semantics.  A non-dict element would raise in Python (`none`). -/
def build_step_lookup (steps : List Value) : Option (List (String × List (String × Value))) :=
  steps.enum.foldl (fun acc p =>
    match acc, p.2 with
    | some tbl, .obj s =>
      match s.lookup "step_id" with
      | some (.str sid) =>
          if pyStrip sid = "" then some (pyInsert tbl (toString p.1) s)
          else some (pyInsert tbl (pyStrip sid) s)
      | _ => some (pyInsert tbl (toString p.1) s)
    | _, _ => none) (some [])

/-- The per-step body of the `for step_id in execution_order` loop
(lines 46-94).  Entries of `execution_order` are strings for every validated
plan; other entries are outside the modelled domain (`none`). -/
def execLoop (tbl : List (String × List (String × Value))) (reg : Registry)
    (env : ActionEnv) :
    List Value → List (String × List (String × Value)) → List StepResult →
    Option ExecutionResult
  | [], _, step_results => some ⟨true, step_results, none⟩
  | .str step_id :: rest, context, step_results =>
    match tbl.lookup step_id with
    | none =>
      let result := step_failure step_id "" "STEP_NOT_FOUND"
        ("Step \x27" ++ step_id ++ "\x27 from execution_order not found in plan.steps")
      some ⟨false, step_results ++ [result], result.error⟩
    | some step =>
      match (step.lookup "id").getD (.str "") with
      | .str atom_id =>
        let atom_def := reg atom_id
        match resolve_callable env atom_id with
        | .error exc =>
          let result := step_failure step_id atom_id exc.code exc.message
          some ⟨false, step_results ++ [result], result.error⟩
        | .ok fn =>
          match (match pyOrDefault (step.lookup "inputs") (.obj []) with
                 | .obj m => some m
                 | _ => none) with
          | none => none   -- a truthy non-dict `inputs` would raise in Python
          | some inputs =>
            match resolve_inputs inputs context [] with
            | .error exc =>
              let result := step_failure step_id atom_id exc.code exc.message
              some ⟨false, step_results ++ [result], result.error⟩
            | .ok resolved_inputs =>
              match fn resolved_inputs with
              | .error exc =>
                let result := step_failure step_id atom_id "STEP_EXECUTION_ERROR"
                  ("Atom \x27" ++ atom_id ++ "\x27 raised: " ++ exc.type_name ++ ": " ++
                   exc.message)
                some ⟨false, step_results ++ [result], result.error⟩
              | .ok return_value =>
                let outputs := map_outputs return_value atom_def
                execLoop tbl reg env rest (pyInsert context step_id outputs)
                  (step_results ++
                   [⟨step_id, atom_id, "completed", outputs, none⟩])
      | _ => none   -- a non-string step `id` would raise at `atom_id.split`
  | _ :: _, _, _ => none

/-- `execute` (lines 17-94). -/
def execute (plan_response : Value) (reg : Registry) (env : ActionEnv) :
    Option ExecutionResult :=
  match plan_response with
  | .obj pr =>
    match pyOrDefault (pr.lookup "validation") (.obj []) with
    | .obj validation =>
      if !(pyTruthy ((validation.lookup "valid").getD .null)) then
        some ⟨false, [], some "Plan validation failed; refusing to execute."⟩
      else
        match pyOrDefault (pr.lookup "plan") (.obj []) with
        | .obj plan_doc =>
          match pyOrDefault (plan_doc.lookup "plan") (.obj []) with
          | .obj plan =>
            match pyOrDefault (plan.lookup "steps") (.arr []) with
            | .arr steps =>
              match pyOrDefault (validation.lookup "execution_order") (.arr []) with
              | .arr execution_order =>
                match build_step_lookup steps with
                | some tbl => execLoop tbl reg env execution_order [] []
                | none => none
              | _ => none   -- iterating a truthy non-list would raise or misbehave
            | _ => none
          | _ => none
        | _ => none
    | _ => none
  | _ => none

/-! ## Library lemmas on the Python-dict model -/

theorem lookup_cons_eq {α : Type _} (k a : String) (b : α) (t : List (String × α)) :
    List.lookup k ((a, b) :: t) = if k = a then some b else List.lookup k t := by
  by_cases h : k = a
  · subst h; simp [List.lookup]
  · simp [List.lookup, beq_eq_false_iff_ne.mpr h, h]

theorem lookup_map_update {α : Type _} (m : List (String × α)) (k : String) (v : α)
    (h : (List.lookup k m).isSome = true) :
    List.lookup k (m.map (fun p => if p.1 = k then (k, v) else p)) = some v := by
  induction m with
  | nil => simp [List.lookup] at h
  | cons p t ih =>
    obtain ⟨a, b⟩ := p
    by_cases hk : a = k
    · subst hk
      simp [lookup_cons_eq]
    · rw [lookup_cons_eq] at h
      rw [if_neg (fun hh => hk hh.symm)] at h
      simp only [List.map_cons, if_neg hk]
      rw [lookup_cons_eq, if_neg (fun hh => hk hh.symm)]
      exact ih h

theorem lookup_map_update_ne {α : Type _} (m : List (String × α)) (k k' : String) (v : α)
    (h : k' ≠ k) :
    List.lookup k' (m.map (fun p => if p.1 = k then (k, v) else p)) = List.lookup k' m := by
  induction m with
  | nil => simp
  | cons p t ih =>
    obtain ⟨a, b⟩ := p
    simp only [List.map_cons]
    by_cases hk : a = k
    · subst hk
      rw [if_pos rfl, lookup_cons_eq, lookup_cons_eq, if_neg h, if_neg h]
      exact ih
    · rw [if_neg hk, lookup_cons_eq, lookup_cons_eq]
      by_cases hk' : k' = a
      · simp [hk']
      · rw [if_neg hk', if_neg hk']
        exact ih

theorem lookup_append_none {α : Type _} (l1 l2 : List (String × α)) (k : String)
    (h : List.lookup k l1 = none) : List.lookup k (l1 ++ l2) = List.lookup k l2 := by
  induction l1 with
  | nil => simp
  | cons p t ih =>
    obtain ⟨a, b⟩ := p
    rw [lookup_cons_eq] at h
    by_cases hk : k = a
    · rw [if_pos hk] at h; exact absurd h (by simp)
    · rw [if_neg hk] at h
      rw [List.cons_append, lookup_cons_eq, if_neg hk]
      exact ih h

theorem lookup_append_single_ne {α : Type _} (m : List (String × α)) (k k' : String) (v : α)
    (h : k' ≠ k) : List.lookup k' (m ++ [(k, v)]) = List.lookup k' m := by
  induction m with
  | nil => simp [lookup_cons_eq, h]
  | cons p t ih =>
    obtain ⟨a, b⟩ := p
    rw [List.cons_append, lookup_cons_eq, lookup_cons_eq]
    by_cases hk : k' = a
    · simp [hk]
    · rw [if_neg hk, if_neg hk]
      exact ih

theorem option_eq_none_of_not_isSome {α : Type _} {o : Option α} (h : ¬o.isSome = true) :
    o = none := by
  cases o with
  | none => rfl
  | some w => simp at h

theorem lookup_pyInsert {α : Type _} (m : List (String × α)) (k : String) (v : α) :
    List.lookup k (pyInsert m k v) = some v := by
  unfold pyInsert
  by_cases h : (List.lookup k m).isSome = true
  · rw [if_pos h]
    exact lookup_map_update m k v h
  · rw [if_neg h]
    rw [lookup_append_none m _ k (option_eq_none_of_not_isSome h), lookup_cons_eq, if_pos rfl]

theorem lookup_pyInsert_ne {α : Type _} (m : List (String × α)) (k k' : String) (v : α)
    (h : k' ≠ k) : List.lookup k' (pyInsert m k v) = List.lookup k' m := by
  unfold pyInsert
  by_cases hs : (List.lookup k m).isSome = true
  · rw [if_pos hs]
    exact lookup_map_update_ne m k k' v h
  · rw [if_neg hs]
    exact lookup_append_single_ne m k k' v h

theorem lookup_pyDict_aux {α : Type _} (g : String → α) (names : List String)
    (m : List (String × α)) (k : String) :
    List.lookup k ((names.map (fun nm => (nm, g nm))).foldl
      (fun m p => pyInsert m p.1 p.2) m) =
    if k ∈ names then some (g k) else List.lookup k m := by
  induction names generalizing m with
  | nil => simp
  | cons n rest ih =>
    simp only [List.map_cons, List.foldl_cons]
    rw [ih (pyInsert m n (g n))]
    by_cases hr : k ∈ rest
    · rw [if_pos hr, if_pos (List.mem_cons_of_mem n hr)]
    · rw [if_neg hr]
      by_cases hn : k = n
      · subst hn
        rw [if_pos (List.mem_cons_self k rest), lookup_pyInsert]
      · rw [lookup_pyInsert_ne m n k (g n) hn,
          if_neg (by simp [hn, hr])]

/-- Looking a key up in a Python dict built from key-determined values. -/
theorem lookup_pyDict {α : Type _} (g : String → α) (names : List String) (k : String) :
    List.lookup k (pyDict (names.map (fun nm => (nm, g nm)))) =
    if k ∈ names then some (g k) else none := by
  unfold pyDict
  rw [lookup_pyDict_aux g names [] k]
  rfl

/-- **C6.**  `_map_outputs`: zero declared outputs give the empty mapping, one
declared output wraps the return value under that name, and with two or more
declared outputs a mapping return value is projected name by name, absent
names giving null and no error being raised. -/
theorem map_outputs_cases (rv : Value) (atom : AtomDef) :
    (atomOutputs atom = [] → map_outputs rv (some atom) = []) ∧
    (∀ o, atomOutputs atom = [o] → map_outputs rv (some atom) = [(o, rv)]) ∧
    (∀ m, 2 ≤ (atomOutputs atom).length → rv = .obj m →
      ∀ nm, List.lookup nm (map_outputs rv (some atom)) =
        if nm ∈ atomOutputs atom then some ((List.lookup nm m).getD .null) else none) := by
  refine ⟨?_, ?_, ?_⟩
  · intro h
    simp only [map_outputs, h]
  · intro o h
    simp only [map_outputs, h]
  · intro m hlen hrv nm
    subst hrv
    cases houts : atomOutputs atom with
    | nil => rw [houts] at hlen; simp at hlen
    | cons o rest =>
      cases rest with
      | nil => rw [houts] at hlen; simp at hlen
      | cons o2 rest2 =>
        simp only [map_outputs, houts]
        rw [← houts]
        exact lookup_pyDict (fun nm => (List.lookup nm m).getD .null) (atomOutputs atom) nm

/-- Witness for C6 at concrete atoms: no outputs, one output, and two outputs
with an absent key mapping to null. -/
theorem map_outputs_cases_witness :
    map_outputs (.num 5) (some ⟨[], []⟩) = [] ∧
    map_outputs (.num 5) (some ⟨[], ["r"]⟩) = [("r", .num 5)] ∧
    List.lookup "b" (map_outputs (.obj [("a", .num 1)]) (some ⟨[], ["a", "b"]⟩)) =
      some Value.null := by
  refine ⟨(map_outputs_cases (.num 5) ⟨[], []⟩).1 rfl,
          (map_outputs_cases (.num 5) ⟨[], ["r"]⟩).2.1 "r" rfl, ?_⟩
  have h := (map_outputs_cases (.obj [("a", .num 1)]) ⟨[], ["a", "b"]⟩).2.2
      [("a", .num 1)] (by decide) rfl "b"
  rw [h]
  rfl

theorem map_fst_pyInsert_fresh {α : Type _} (m : List (String × α)) (k : String) (v : α)
    (h : List.lookup k m = none) :
    (pyInsert m k v).map Prod.fst = m.map Prod.fst ++ [k] := by
  unfold pyInsert
  rw [if_neg (by simp [h])]
  simp

/-! ## C8: run-time input resolution -/

/-- What §4.6 of the spec prescribes for a single input value: a string
matching the reference pattern after trim resolves to
`context[referenced-step][output-name]` (absent entry or output gives no
result), every other value passes through unchanged. -/
def resolvedValue (ctx : List (String × List (String × Value))) (v : Value) : Option Value :=
  match v with
  | .str s =>
    match parse_ref s with
    | some (sid, oname) =>
      match List.lookup sid ctx with
      | some outs => List.lookup oname outs
      | none => none
    | none => some v
  | _ => some v

theorem resolve_inputs_go (ctx : List (String × List (String × Value))) :
    ∀ (inputs acc : List (String × Value)),
    (inputs.map Prod.fst).Nodup →
    (∀ k, k ∈ inputs.map Prod.fst → List.lookup k acc = none) →
    (∀ r, resolve_inputs inputs ctx acc = .ok r →
        r.map Prod.fst = acc.map Prod.fst ++ inputs.map Prod.fst ∧
        (∀ k, k ∉ inputs.map Prod.fst → List.lookup k r = List.lookup k acc) ∧
        (∀ k v, (k, v) ∈ inputs →
          ∃ w, resolvedValue ctx v = some w ∧ List.lookup k r = some w)) ∧
    (∀ e, resolve_inputs inputs ctx acc = .error e →
        e.code = "UNRESOLVED_REF" ∧
        ∃ k s, (k, .str s) ∈ inputs ∧ (parse_ref s).isSome = true ∧
          resolvedValue ctx (.str s) = none) := by
  intro inputs
  induction inputs with
  | nil =>
    intro acc _ _
    constructor
    · intro r hr
      cases hr
      exact ⟨by simp, fun k _ => rfl, by simp⟩
    · intro e he
      cases he
  | cons p rest ih =>
    obtain ⟨k, v⟩ := p
    intro acc hnd hfresh
    have hnd' : (k :: rest.map Prod.fst).Nodup := by simpa using hnd
    have hk_not_rest : k ∉ rest.map Prod.fst := (List.nodup_cons.mp hnd').1
    have hnd_rest : (rest.map Prod.fst).Nodup := (List.nodup_cons.mp hnd').2
    have hk_acc : List.lookup k acc = none := hfresh k (by simp)
    have main : ∀ (w : Value), resolvedValue ctx v = some w →
        resolve_inputs ((k, v) :: rest) ctx acc = resolve_inputs rest ctx (pyInsert acc k w) := by
      intro w hw
      cases v with
      | str s =>
        cases hp : parse_ref s with
        | none =>
          have hws : w = .str s := by
            simp only [resolvedValue, hp] at hw
            exact (Option.some.inj hw).symm
          subst hws
          simp only [resolve_inputs, hp]
        | some pr =>
          obtain ⟨sid, oname⟩ := pr
          cases hc : List.lookup sid ctx with
          | none =>
            simp only [resolvedValue, hp, hc] at hw
            exact Option.noConfusion hw
          | some outs =>
            have hw' : List.lookup oname outs = some w := by
              simpa only [resolvedValue, hp, hc] using hw
            simp only [resolve_inputs, hp, hc, hw']
      | null => cases hw; rfl
      | bool b => cases hw; rfl
      | num n => cases hw; rfl
      | arr l => cases hw; rfl
      | obj m => cases hw; rfl
    have hfresh' : ∀ (w : Value), ∀ k', k' ∈ rest.map Prod.fst →
        List.lookup k' (pyInsert acc k w) = none := by
      intro w k' hk'
      rw [lookup_pyInsert_ne acc k k' w (fun he => hk_not_rest (he ▸ hk'))]
      exact hfresh k' (by simp [hk'])
    cases hrv : resolvedValue ctx v with
    | some w =>
      have heq := main w hrv
      have IH := ih (pyInsert acc k w) hnd_rest (hfresh' w)
      constructor
      · intro r hr
        rw [heq] at hr
        obtain ⟨IH1, IH2, IH3⟩ := IH.1 r hr
        refine ⟨?_, ?_, ?_⟩
        · rw [IH1, map_fst_pyInsert_fresh acc k w hk_acc]
          simp
        · intro k' hk'
          have hk'r : k' ∉ rest.map Prod.fst := fun hh => hk' (by simp [hh])
          have hk'k : k' ≠ k := fun hh => hk' (by simp [hh])
          rw [IH2 k' hk'r, lookup_pyInsert_ne acc k k' w hk'k]
        · intro k' v' hmem
          rcases List.mem_cons.mp hmem with hhead | htail
          · have hk1 : k' = k := congrArg Prod.fst hhead
            have hv1 : v' = v := congrArg Prod.snd hhead
            refine ⟨w, by rw [hv1]; exact hrv, ?_⟩
            rw [hk1, IH2 k hk_not_rest, lookup_pyInsert]
          · exact IH3 k' v' htail
      · intro e he
        rw [heq] at he
        obtain ⟨hcode, k', s', hmem, hps, hrv'⟩ := IH.2 e he
        exact ⟨hcode, k', s', List.mem_cons_of_mem _ hmem, hps, hrv'⟩
    | none =>
      cases v with
      | str s =>
        cases hp : parse_ref s with
        | none =>
          simp only [resolvedValue, hp] at hrv
          exact Option.noConfusion hrv
        | some pr =>
          obtain ⟨sid, oname⟩ := pr
          cases hc : List.lookup sid ctx with
          | none =>
            have heq : resolve_inputs ((k, .str s) :: rest) ctx acc = .error
                ⟨"UNRESOLVED_REF", "Reference \x27" ++ s ++ "\x27: step \x27" ++ sid ++
                 "\x27 has no outputs in context"⟩ := by
              simp only [resolve_inputs, hp, hc]
            constructor
            · intro r hr
              rw [heq] at hr
              cases hr
            · intro e he
              rw [heq] at he
              cases he
              exact ⟨rfl, k, s, by simp, by simp [hp], hrv⟩
          | some outs =>
            have hlo : List.lookup oname outs = none := by
              simpa only [resolvedValue, hp, hc] using hrv
            have heq : resolve_inputs ((k, .str s) :: rest) ctx acc = .error
                ⟨"UNRESOLVED_REF", "Reference \x27" ++ s ++ "\x27: step \x27" ++ sid ++
                 "\x27 has no output \x27" ++ oname ++ "\x27"⟩ := by
              simp only [resolve_inputs, hp, hc, hlo]
            constructor
            · intro r hr
              rw [heq] at hr
              cases hr
            · intro e he
              rw [heq] at he
              cases he
              exact ⟨rfl, k, s, by simp, by simp [hp], hrv⟩
      | null => simp [resolvedValue] at hrv
      | bool b => simp [resolvedValue] at hrv
      | num n => simp [resolvedValue] at hrv
      | arr l => simp [resolvedValue] at hrv
      | obj m => simp [resolvedValue] at hrv

/-- **C8.**  `_resolve_inputs`: for every inputs mapping (unique keys, as in
every Python dict) and context, a successful resolution keeps exactly the
input keys and maps each input whose value is a string matching the reference
pattern after trimming to `context[step][output]`, passing every other value
through unchanged; a failure is an `UNRESOLVED_REF` caused by some reference
input whose step is absent from the context or whose output key is absent. -/
theorem resolve_inputs_spec (inputs : List (String × Value))
    (ctx : List (String × List (String × Value)))
    (hnd : (inputs.map Prod.fst).Nodup) :
    (∀ r, resolve_inputs inputs ctx [] = .ok r →
        r.map Prod.fst = inputs.map Prod.fst ∧
        ∀ k v, (k, v) ∈ inputs →
          ∃ w, resolvedValue ctx v = some w ∧ List.lookup k r = some w) ∧
    (∀ e, resolve_inputs inputs ctx [] = .error e →
        e.code = "UNRESOLVED_REF" ∧
        ∃ k s, (k, .str s) ∈ inputs ∧ (parse_ref s).isSome = true ∧
          resolvedValue ctx (.str s) = none) := by
  have h := resolve_inputs_go ctx inputs [] hnd (fun k _ => rfl)
  exact ⟨fun r hr => ⟨by simpa using (h.1 r hr).1, (h.1 r hr).2.2⟩, h.2⟩

/-- Witness for C8: a reference input is substituted from the context while a
literal and a near-miss string pass through unchanged. -/
theorem resolve_inputs_spec_witness :
    (∃ w, resolvedValue [("s1", [("x", Value.str "v")])]
        (.str "$\x7bs1.outputs.x\x7d") = some w ∧
      List.lookup "a" [("a", Value.str "v"), ("b", Value.num 3),
        ("c", Value.str "$\x7bs1.x\x7d")] = some w) ∧
    (∃ w, resolvedValue [("s1", [("x", Value.str "v")])] (.str "$\x7bs1.x\x7d") = some w ∧
      List.lookup "c" [("a", Value.str "v"), ("b", Value.num 3),
        ("c", Value.str "$\x7bs1.x\x7d")] = some w) := by
  have h := (resolve_inputs_spec
      [("a", Value.str "$\x7bs1.outputs.x\x7d"), ("b", Value.num 3),
       ("c", Value.str "$\x7bs1.x\x7d")]
      [("s1", [("x", Value.str "v")])] (by decide)).1
      [("a", Value.str "v"), ("b", Value.num 3), ("c", Value.str "$\x7bs1.x\x7d")] rfl
  exact ⟨h.2 "a" (.str "$\x7bs1.outputs.x\x7d") (List.mem_cons_self _ _),
         h.2 "c" (.str "$\x7bs1.x\x7d")
           (List.mem_cons_of_mem _ (List.mem_cons_of_mem _ (List.mem_cons_self _ _)))⟩

/-- **C9.**  `execute` with a missing `validation` object, or a `validation`
whose `valid` field is absent or false, invokes nothing and returns the fixed
refusal result `{success: false, step_results: [], error: ...}` — the result
is this constant for every registry and every action environment. -/
theorem execute_refuses (pr : List (String × Value)) (reg : Registry) (env : ActionEnv)
    (h : List.lookup "validation" pr = none ∨
         (∃ vm, List.lookup "validation" pr = some (.obj vm) ∧
            (List.lookup "valid" vm = none ∨ List.lookup "valid" vm = some (.bool false)))) :
    execute (.obj pr) reg env =
      some ⟨false, [], some "Plan validation failed; refusing to execute."⟩ := by
  rcases h with hnone | ⟨vm, hvm, hvalid⟩
  · simp [execute, hnone, pyOrDefault, pyTruthy]
  · by_cases hempty : vm = []
    · subst hempty
      simp [execute, hvm, pyOrDefault, pyTruthy]
    · have hie : vm.isEmpty = false := by
        cases vm with
        | nil => exact absurd rfl hempty
        | cons a t => rfl
      rcases hvalid with hv | hv
      · simp [execute, hvm, pyOrDefault, pyTruthy, hie, hv]
      · simp [execute, hvm, pyOrDefault, pyTruthy, hie, hv]

/-- Witness for C9 at a concrete response with `valid = false`. -/
theorem execute_refuses_witness :
    execute (.obj [("validation", Value.obj [("valid", Value.bool false)])])
      (fun _ => none) (fun _ => none) =
      some ⟨false, [], some "Plan validation failed; refusing to execute."⟩ :=
  execute_refuses [("validation", Value.obj [("valid", Value.bool false)])]
    (fun _ => none) (fun _ => none)
    (Or.inr ⟨[("valid", Value.bool false)], rfl, Or.inr rfl⟩)

theorem ne_nil_of_not_isEmpty {α : Type _} {l : List α} (h : ¬l.isEmpty = true) :
    l ≠ [] := fun he => h (he ▸ rfl)

/-- **C10.**  `validate_plan` is total on arbitrary plan documents (any
JSON-like value) and well-formed registries — it is a total function into
`VResult` by construction — and an invalid result always carries at least one
error; a valid result carries the warnings and the execution order. -/
theorem validate_plan_invalid_nonempty (pd : Value) (reg : Registry) :
    ∀ es, validate_plan pd reg = .invalid es → es ≠ [] := by
  intro es h
  cases pd with
  | obj doc =>
    simp only [validate_plan] at h
    split at h
    · split at h
      · split at h
        · simp only [topoStage] at h
          split at h
          · cases h
          · cases h
            simp
        · next hc =>
            cases h
            exact ne_nil_of_not_isEmpty hc
      · next hc =>
          cases h
          exact ne_nil_of_not_isEmpty hc
    · next hc =>
        cases h
        exact ne_nil_of_not_isEmpty hc
  | null => simp only [validate_plan] at h; cases h; simp
  | bool b => simp only [validate_plan] at h; cases h; simp
  | num n => simp only [validate_plan] at h; cases h; simp
  | str s => simp only [validate_plan] at h; cases h; simp
  | arr l => simp only [validate_plan] at h; cases h; simp

/-- Witness for C10 at a non-object plan document. -/
theorem validate_plan_invalid_nonempty_witness :
    ([⟨"INVALID_TYPE", "Plan document must be an object", ""⟩] : List VError) ≠ [] :=
  validate_plan_invalid_nonempty (.str "nope") (fun _ => none)
    [⟨"INVALID_TYPE", "Plan document must be an object", ""⟩] rfl

theorem isEmpty_true_iff {α : Type _} {l : List α} : l.isEmpty = true ↔ l = [] := by
  cases l <;> simp

/-- **C5 (counterexample).**  The claim that the validator returns at the
first failing stage without errors from later stages fails already between
stage 1 (root `target`/`plan`) and stage 2 (`plan.steps`): a document missing
`target` and having empty steps reports both errors together. -/
theorem schema_stages_counterexample :
    ¬ (∀ (doc : List (String × Value)) (reg : Registry),
        targetPlanErrors doc ≠ [] →
        validate_plan (.obj doc) reg = .invalid (targetPlanErrors doc)) := by
  intro hclaim
  have h := hclaim [("plan", .obj [("steps", .arr [])])] (fun _ => none) (by decide)
  have h2 : validate_plan (.obj [("plan", .obj [("steps", .arr [])])]) (fun _ => none) =
      .invalid [⟨"MISSING_FIELD", "Missing required field \x27target\x27", "target"⟩,
                ⟨"EMPTY_STEPS", "plan.steps must not be empty", "plan.steps"⟩] := rfl
  rw [h] at h2
  have : (targetPlanErrors [("plan", Value.obj [("steps", Value.arr [])])]) =
      [⟨"MISSING_FIELD", "Missing required field \x27target\x27", "target"⟩,
       ⟨"EMPTY_STEPS", "plan.steps must not be empty", "plan.steps"⟩] :=
    VResult.invalid.inj h2
  exact absurd this (by decide)

/-- **C5 (amended).**  The validator batches its checks in two groups, each
collecting all of its errors: the root/`target`/`plan` checks together with
the `plan.steps` checks are returned first when any of them fails, without
any per-step or `plan.outputs` errors; otherwise the per-step checks and the
`plan.outputs` check are collected together and returned when any fails,
before the semantic stages. -/
theorem schema_stage_groups (doc : List (String × Value)) (reg : Registry) :
    (targetPlanErrors doc ++ stepsFieldErrors ((planObjOf doc).lookup "steps") ≠ [] →
      validate_plan (.obj doc) reg =
        .invalid (targetPlanErrors doc ++ stepsFieldErrors ((planObjOf doc).lookup "steps"))) ∧
    (targetPlanErrors doc ++ stepsFieldErrors ((planObjOf doc).lookup "steps") = [] →
      schemaStageErrors (stepsOfPlan (planObjOf doc)) (planObjOf doc) ≠ [] →
      validate_plan (.obj doc) reg =
        .invalid (schemaStageErrors (stepsOfPlan (planObjOf doc)) (planObjOf doc))) := by
  constructor
  · intro hne
    simp only [validate_plan]
    rw [if_neg (fun hc => hne (isEmpty_true_iff.mp hc))]
  · intro he12 hne
    simp only [validate_plan]
    rw [if_pos (isEmpty_true_iff.mpr he12),
      if_neg (fun hc => hne (isEmpty_true_iff.mp hc))]

/-- Witness for the amended C5: one document failing in the first group, one
failing only in the second. -/
theorem schema_stage_groups_witness :
    validate_plan (.obj [("plan", .obj [("steps", .arr [])])]) (fun _ => none) =
      .invalid [⟨"MISSING_FIELD", "Missing required field \x27target\x27", "target"⟩,
                ⟨"EMPTY_STEPS", "plan.steps must not be empty", "plan.steps"⟩] ∧
    validate_plan (.obj [("target", .str "t"),
        ("plan", .obj [("steps", .arr [.num 5]), ("outputs", .num 1)])]) (fun _ => none) =
      .invalid [⟨"INVALID_TYPE", "Step must be an object", "plan.steps[0]"⟩,
                ⟨"INVALID_TYPE", "Field \x27plan.outputs\x27 must be an object", "plan.outputs"⟩] := by
  constructor
  · have h := (schema_stage_groups [("plan", .obj [("steps", .arr [])])] (fun _ => none)).1
      (by decide)
    rw [h]
    rfl
  · have h := (schema_stage_groups [("target", .str "t"),
        ("plan", .obj [("steps", .arr [.num 5]), ("outputs", .num 1)])] (fun _ => none)).2
      (by decide) (by decide)
    rw [h]
    rfl

/-! ## String and key lemmas for error identification -/

theorem string_data_append (s t : String) : (s ++ t).data = s.data ++ t.data := by
  cases s; cases t; rfl

theorem string_mk_inj {a b : List Char} (h : String.mk a = String.mk b) : a = b := by
  cases h; rfl

theorem string_append_left_cancel (a x y : String) (h : a ++ x = a ++ y) : x = y := by
  have hd : a.data ++ x.data = a.data ++ y.data := by
    have := congrArg String.data h
    rwa [string_data_append, string_data_append] at this
  have hxy : x.data = y.data := List.append_cancel_left hd
  cases x; cases y
  exact congrArg String.mk hxy

theorem string_sandwich_inj (a b x y : String) (h : a ++ x ++ b = a ++ y ++ b) : x = y := by
  have hd : a.data ++ x.data ++ b.data = a.data ++ y.data ++ b.data := by
    have := congrArg String.data h
    rwa [string_data_append, string_data_append, string_data_append,
      string_data_append] at this
  rw [List.append_assoc, List.append_assoc] at hd
  have h1 : x.data ++ b.data = y.data ++ b.data := List.append_cancel_left hd
  have hxy : x.data = y.data := List.append_cancel_right h1
  cases x; cases y
  exact congrArg String.mk hxy

theorem not_mem_keys_of_lookup_none {α : Type _} {m : List (String × α)} {k : String}
    (h : List.lookup k m = none) : k ∉ m.map Prod.fst := by
  induction m with
  | nil => simp
  | cons p t ih =>
    obtain ⟨a, b⟩ := p
    rw [lookup_cons_eq] at h
    by_cases hk : k = a
    · rw [if_pos hk] at h; exact absurd h (by simp)
    · rw [if_neg hk] at h
      simpa [hk] using ih h

theorem keys_pyInsert {α : Type _} (m : List (String × α)) (k : String) (v : α) :
    ((pyInsert m k v).map Prod.fst).Nodup ↔ (m.map Prod.fst).Nodup := by
  unfold pyInsert
  by_cases h : (List.lookup k m).isSome = true
  · rw [if_pos h]
    have : (m.map (fun p => if p.1 = k then (k, v) else p)).map Prod.fst = m.map Prod.fst := by
      rw [List.map_map]
      apply List.map_congr_left
      intro p _
      by_cases hp : p.1 = k
      · simp [hp]
      · simp [hp]
    rw [this]
  · rw [if_neg h]
    have hk : k ∉ m.map Prod.fst := not_mem_keys_of_lookup_none (option_eq_none_of_not_isSome h)
    constructor
    · intro hn
      have := List.Nodup.of_append_left (by simpa using hn)
      exact this
    · intro hn
      simp only [List.map_append, List.map_cons, List.map_nil]
      rw [List.nodup_append]
      refine ⟨hn, by simp, ?_⟩
      intro x hx hx2
      have hxk : x = k := by simpa using hx2
      exact hk (hxk ▸ hx)

theorem pyDict_keys_nodup {α : Type _} (l : List (String × α)) :
    ((pyDict l).map Prod.fst).Nodup := by
  unfold pyDict
  suffices h : ∀ m : List (String × α), ((m.map Prod.fst).Nodup) →
      ((l.foldl (fun m p => pyInsert m p.1 p.2) m).map Prod.fst).Nodup by
    exact h [] (by simp)
  induction l with
  | nil => intro m hm; simpa using hm
  | cons p t ih =>
    intro m hm
    simp only [List.foldl_cons]
    exact ih (pyInsert m p.1 p.2) ((keys_pyInsert m p.1 p.2).mpr hm)

theorem lookup_unique_of_keys_nodup {α : Type _} {m : List (String × α)}
    (hnd : (m.map Prod.fst).Nodup) {k : String} {a b : α}
    (ha : (k, a) ∈ m) (hb : (k, b) ∈ m) : a = b := by
  induction m with
  | nil => cases ha
  | cons p t ih =>
    have hnd' : (p.1 :: t.map Prod.fst).Nodup := by simpa using hnd
    rcases List.mem_cons.mp ha with h1 | h1 <;> rcases List.mem_cons.mp hb with h2 | h2
    · have h12 : (k, a) = ((k, b) : String × α) := h1.trans h2.symm
      exact congrArg Prod.snd h12
    · exfalso
      have hk : p.1 = k := (congrArg Prod.fst h1).symm
      exact (List.nodup_cons.mp hnd').1 (hk ▸ (List.mem_map_of_mem Prod.fst h2))
    · exfalso
      have hk : p.1 = k := (congrArg Prod.fst h2).symm
      exact (List.nodup_cons.mp hnd').1 (hk ▸ (List.mem_map_of_mem Prod.fst h1))
    · exact ih (List.nodup_cons.mp hnd').2 h1 h2

theorem head?_append_left {α : Type _} (l1 l2 : List α) (h : l1 ≠ []) :
    (l1 ++ l2).head? = l1.head? := by
  cases l1 with
  | nil => exact absurd rfl h
  | cons a t => rfl

theorem missingInputErr_inj (base : String) {nm nm' : String}
    (h : missingInputErr base nm = missingInputErr base nm') : nm = nm' := by
  have hmsg : "Required input " ++ pyReprStr nm ++ " is missing" =
      "Required input " ++ pyReprStr nm' ++ " is missing" := congrArg VError.message h
  have hd := congrArg String.data hmsg
  simp only [pyReprStr, string_data_append, List.append_assoc] at hd
  have h1 := List.append_cancel_left hd
  have h2 := List.append_cancel_left h1
  have h3 : nm.data = nm'.data := List.append_cancel_right h2
  cases nm; cases nm'
  exact congrArg String.mk h3

theorem noValueInputErr_inj (base : String) {nm nm' : String}
    (h : noValueInputErr base nm = noValueInputErr base nm') : nm = nm' := by
  have hp : base ++ ".inputs." ++ nm = base ++ ".inputs." ++ nm' := congrArg VError.path h
  have hd := congrArg String.data hp
  simp only [string_data_append, List.append_assoc] at hd
  have h1 := List.append_cancel_left hd
  have h2 : nm.data = nm'.data := List.append_cancel_left h1
  cases nm; cases nm'
  exact congrArg String.mk h2

theorem missing_ne_noValue (base nm nm' : String) :
    missingInputErr base nm ≠ noValueInputErr base nm' := by
  intro h
  have hmsg : "Required input " ++ pyReprStr nm ++ " is missing" =
      "Required input " ++ pyReprStr nm' ++ " has no value" := congrArg VError.message h
  have hd := congrArg (fun s => s.data.reverse.head?) hmsg
  simp only [string_data_append, List.reverse_append] at hd
  rw [head?_append_left _ _ (by decide), head?_append_left _ _ (by decide)] at hd
  exact absurd hd (by decide)

theorem isNoValue_iff (v : Value) : isNoValue v = true ↔
    (v = .null ∨ ∃ s, v = .str s ∧ pyStrip s = "" ∧ is_ref (.str s) = false) := by
  cases v with
  | null => simp [isNoValue]
  | str s =>
    simp only [isNoValue, Bool.and_eq_true, beq_iff_eq, Bool.not_eq_true']
    constructor
    · rintro ⟨h1, h2⟩
      exact Or.inr ⟨s, rfl, h1, h2⟩
    · rintro (h | ⟨s', hs, h1, h2⟩)
      · cases h
      · cases hs
        exact ⟨h1, h2⟩
  | bool b => simp [isNoValue]
  | num n => simp [isNoValue]
  | arr l => simp [isNoValue]
  | obj m => simp [isNoValue]

theorem mem_requiredInputErrors (base : String) (atom : AtomDef)
    (inputs : List (String × Value)) (e : VError) :
    e ∈ requiredInputErrors base atom inputs ↔
    ∃ nm d, (nm, d) ∈ atomInputMap atom ∧ d.required = true ∧
      ((List.lookup nm inputs = none ∧ e = missingInputErr base nm) ∨
       (∃ v, List.lookup nm inputs = some v ∧ isNoValue v = true ∧
         e = noValueInputErr base nm)) := by
  unfold requiredInputErrors
  rw [List.mem_flatMap]
  constructor
  · rintro ⟨p, hp, he⟩
    obtain ⟨nm, d⟩ := p
    refine ⟨nm, d, hp, ?_⟩
    by_cases hr : d.required = true
    · rw [if_pos hr] at he
      refine ⟨hr, ?_⟩
      cases hl : List.lookup nm inputs with
      | none =>
        rw [hl] at he
        exact Or.inl ⟨rfl, by simpa using he⟩
      | some v =>
        rw [hl] at he
        dsimp only at he
        by_cases hnv : isNoValue v = true
        · rw [if_pos hnv] at he
          exact Or.inr ⟨v, rfl, hnv, by simpa using he⟩
        · rw [if_neg hnv] at he
          cases he
    · rw [if_neg hr] at he
      cases he
  · rintro ⟨nm, d, hmem, hr, hcase⟩
    refine ⟨(nm, d), hmem, ?_⟩
    rcases hcase with ⟨hl, he⟩ | ⟨v, hl, hnv, he⟩
    · rw [if_pos hr, hl, he]
      simp
    · rw [if_pos hr, hl]
      dsimp only
      rw [if_pos hnv, he]
      simp

theorem pyOrDefault_obj (m : List (String × Value)) :
    pyOrDefault (some (.obj m)) (.obj []) = .obj m := by
  cases m <;> simp [pyOrDefault, pyTruthy]

theorem stepAtomErrors_known (base atom_id : String) (reg : Registry) (atom : AtomDef)
    (s inputs : List (String × Value))
    (hid : List.lookup "id" s = some (.str atom_id)) (hida : atom_id ≠ "")
    (hreg : reg atom_id = some atom)
    (hinputs : List.lookup "inputs" s = some (.obj inputs)) :
    stepAtomErrors base reg s =
      ((inputs.map Prod.fst).filter (fun k => !((atomInputMap atom).lookup k).isSome)).map
        (unknownFieldErr base atom_id) ++ requiredInputErrors base atom inputs := by
  have htr : pyTruthy (.str atom_id) = true := by simp [pyTruthy, hida]
  simp only [stepAtomErrors, hid, htr, if_true, hreg, hinputs, pyOrDefault_obj]

/-- **C7.**  For a step bound to a known capability, a declared required input
produces a `MISSING_REQUIRED_INPUT` error exactly when the input key is
absent, its value is null, or its value is a string that trims to empty and is
not a reference expression; any other value (in particular any non-null
non-string value) satisfies the check. -/
theorem required_input_check (base : String) (reg : Registry) (atom_id : String)
    (atom : AtomDef) (s inputs : List (String × Value))
    (hid : List.lookup "id" s = some (.str atom_id)) (hida : atom_id ≠ "")
    (hreg : reg atom_id = some atom)
    (hinputs : List.lookup "inputs" s = some (.obj inputs)) :
    ∀ nm d, (nm, d) ∈ atomInputMap atom → d.required = true →
      ((missingInputErr base nm ∈ stepAtomErrors base reg s ∨
        noValueInputErr base nm ∈ stepAtomErrors base reg s) ↔
       (List.lookup nm inputs = none ∨ List.lookup nm inputs = some .null ∨
        ∃ str, List.lookup nm inputs = some (.str str) ∧ pyStrip str = "" ∧
          is_ref (.str str) = false)) := by
  intro nm d hmem hreq
  rw [stepAtomErrors_known base atom_id reg atom s inputs hid hida hreg hinputs]
  constructor
  · intro h
    have hcore : missingInputErr base nm ∈ requiredInputErrors base atom inputs ∨
        noValueInputErr base nm ∈ requiredInputErrors base atom inputs := by
      rcases h with h | h
      · rcases List.mem_append.mp h with h' | h'
        · exfalso
          rcases List.mem_map.mp h' with ⟨k, _, hk⟩
          exact absurd (show ("UNKNOWN_INPUT_FIELD" : String) = "MISSING_REQUIRED_INPUT"
            from congrArg VError.code hk) (by decide)
        · exact Or.inl h'
      · rcases List.mem_append.mp h with h' | h'
        · exfalso
          rcases List.mem_map.mp h' with ⟨k, _, hk⟩
          exact absurd (show ("UNKNOWN_INPUT_FIELD" : String) = "MISSING_REQUIRED_INPUT"
            from congrArg VError.code hk) (by decide)
        · exact Or.inr h'
    rcases hcore with hc | hc
    · obtain ⟨nm', d', hmem', hreq', hcase⟩ :=
        (mem_requiredInputErrors base atom inputs _).mp hc
      rcases hcase with ⟨hl, he⟩ | ⟨v, hl, hnv, he⟩
      · have hnn : nm = nm' := missingInputErr_inj base he
        rw [← hnn] at hl
        exact Or.inl hl
      · exact absurd he (missing_ne_noValue base nm nm')
    · obtain ⟨nm', d', hmem', hreq', hcase⟩ :=
        (mem_requiredInputErrors base atom inputs _).mp hc
      rcases hcase with ⟨hl, he⟩ | ⟨v, hl, hnv, he⟩
      · exact absurd he.symm (missing_ne_noValue base nm' nm)
      · have hnn : nm = nm' := noValueInputErr_inj base he
        rw [← hnn] at hl
        rcases (isNoValue_iff v).mp hnv with hv | ⟨str, hv, h1, h2⟩
        · exact Or.inr (Or.inl (hv ▸ hl))
        · exact Or.inr (Or.inr ⟨str, hv ▸ hl, h1, h2⟩)
  · intro h
    rcases h with hl | hl | ⟨str, hl, h1, h2⟩
    · exact Or.inl (List.mem_append.mpr (Or.inr
        ((mem_requiredInputErrors base atom inputs _).mpr
          ⟨nm, d, hmem, hreq, Or.inl ⟨hl, rfl⟩⟩)))
    · exact Or.inr (List.mem_append.mpr (Or.inr
        ((mem_requiredInputErrors base atom inputs _).mpr
          ⟨nm, d, hmem, hreq, Or.inr ⟨.null, hl, rfl, rfl⟩⟩)))
    · exact Or.inr (List.mem_append.mpr (Or.inr
        ((mem_requiredInputErrors base atom inputs _).mpr
          ⟨nm, d, hmem, hreq, Or.inr ⟨.str str, hl,
            (isNoValue_iff (.str str)).mpr (Or.inr ⟨str, rfl, h1, h2⟩), rfl⟩⟩)))

/-- Witness for C7: a required input that is present with value 0 raises no
error, while an absent one and an empty-string one do. -/
theorem required_input_check_witness :
    (¬ (missingInputErr "plan.steps[0]" "arg" ∈
          stepAtomErrors "plan.steps[0]"
            (fun s => if s = "p.d.a" then some ⟨[⟨"arg", true⟩], []⟩ else none)
            [("id", .str "p.d.a"), ("inputs", .obj [("arg", .num 0)])] ∨
        noValueInputErr "plan.steps[0]" "arg" ∈
          stepAtomErrors "plan.steps[0]"
            (fun s => if s = "p.d.a" then some ⟨[⟨"arg", true⟩], []⟩ else none)
            [("id", .str "p.d.a"), ("inputs", .obj [("arg", .num 0)])])) ∧
    (missingInputErr "plan.steps[0]" "arg" ∈
        stepAtomErrors "plan.steps[0]"
          (fun s => if s = "p.d.a" then some ⟨[⟨"arg", true⟩], []⟩ else none)
          [("id", .str "p.d.a"), ("inputs", .obj [])] ∨
      noValueInputErr "plan.steps[0]" "arg" ∈
        stepAtomErrors "plan.steps[0]"
          (fun s => if s = "p.d.a" then some ⟨[⟨"arg", true⟩], []⟩ else none)
          [("id", .str "p.d.a"), ("inputs", .obj [])]) := by
  constructor
  · intro h
    have hiff := required_input_check "plan.steps[0]"
      (fun s => if s = "p.d.a" then some ⟨[⟨"arg", true⟩], []⟩ else none) "p.d.a"
      ⟨[⟨"arg", true⟩], []⟩
      [("id", .str "p.d.a"), ("inputs", .obj [("arg", .num 0)])]
      [("arg", .num 0)] rfl (by decide) rfl rfl "arg" ⟨"arg", true⟩ (by simp [atomInputMap, pyDict, pyInsert]) rfl
    have hbad := hiff.mp h
    rcases hbad with hb | hb | ⟨str, hb, _, _⟩ <;> simp [List.lookup] at hb
  · have hiff := required_input_check "plan.steps[0]"
      (fun s => if s = "p.d.a" then some ⟨[⟨"arg", true⟩], []⟩ else none) "p.d.a"
      ⟨[⟨"arg", true⟩], []⟩
      [("id", .str "p.d.a"), ("inputs", .obj [])]
      [] rfl (by decide) rfl rfl "arg" ⟨"arg", true⟩ (by simp [atomInputMap, pyDict, pyInsert]) rfl
    exact hiff.mpr (Or.inl rfl)

/-! ## Kahn loop invariants (topological sort, lines 200-222) -/

/-- The in-degree of `v` counting only edges whose source entry is not yet
placed in `order` (the invariant value of the loop's `in_degree` map). -/
def sumUnproc (g : Graph) (order : List Nat) (v : Nat) : Int :=
  ((g.filter (fun p => decide (p.1 ∉ order))).map
    (fun p => ((p.2.count v : Nat) : Int))).sum

theorem relax_indeg (succs : List Nat) :
    ∀ (indeg : Nat → Int) (queue : List Nat) (v : Nat),
    (relax succs indeg queue).1 v = indeg v - succs.count v := by
  induction succs with
  | nil => intro indeg queue v; simp [relax]
  | cons s ss ih =>
    intro indeg queue v
    simp only [relax]
    rw [ih]
    by_cases hv : v = s
    · subst hv
      simp [List.count_cons]
      omega
    · simp [List.count_cons, hv, fun h : s = v => hv h.symm]

theorem relax_queue_prefix (succs : List Nat) :
    ∀ (indeg : Nat → Int) (queue : List Nat),
    ∃ t, (relax succs indeg queue).2 = queue ++ t := by
  induction succs with
  | nil => intro indeg queue; exact ⟨[], by simp [relax]⟩
  | cons s ss ih =>
    intro indeg queue
    simp only [relax]
    by_cases hd : indeg s - 1 = 0
    · rw [if_pos hd]
      obtain ⟨t, ht⟩ := ih (fun w => if w = s then indeg s - 1 else indeg w) (queue ++ [s])
      exact ⟨[s] ++ t, by rw [ht, List.append_assoc]⟩
    · rw [if_neg hd]
      exact ih _ queue

theorem relax_queue_mem (succs : List Nat) :
    ∀ (indeg : Nat → Int) (queue : List Nat) (x : Nat),
    x ∈ (relax succs indeg queue).2 → x ∈ queue ∨ (x ∈ succs ∧ 1 ≤ indeg x) := by
  induction succs with
  | nil => intro indeg queue x hx; exact Or.inl (by simpa [relax] using hx)
  | cons s ss ih =>
    intro indeg queue x hx
    simp only [relax] at hx
    by_cases hd : indeg s - 1 = 0
    · rw [if_pos hd] at hx
      rcases ih _ _ x hx with h | ⟨hmem, hle⟩
      · rcases List.mem_append.mp h with h' | h'
        · exact Or.inl h'
        · have hxs : x = s := by simpa using h'
          subst hxs
          exact Or.inr ⟨by simp, by omega⟩
      · by_cases hxs : x = s
        · subst hxs
          exact Or.inr ⟨by simp, by omega⟩
        · rw [if_neg hxs] at hle
          exact Or.inr ⟨by simp [hmem], hle⟩
    · rw [if_neg hd] at hx
      rcases ih _ _ x hx with h | ⟨hmem, hle⟩
      · exact Or.inl h
      · by_cases hxs : x = s
        · subst hxs
          rw [if_pos rfl] at hle
          exact Or.inr ⟨by simp, by omega⟩
        · rw [if_neg hxs] at hle
          exact Or.inr ⟨by simp [hmem], hle⟩

theorem relax_nodup (succs : List Nat) :
    ∀ (indeg : Nat → Int) (queue : List Nat),
    queue.Nodup → (∀ x ∈ queue, indeg x ≤ 0) →
    (relax succs indeg queue).2.Nodup ∧
      (∀ x ∈ (relax succs indeg queue).2, (relax succs indeg queue).1 x ≤ 0) := by
  induction succs with
  | nil =>
    intro indeg queue hq hle
    exact ⟨by simpa [relax] using hq, by simpa [relax] using hle⟩
  | cons s ss ih =>
    intro indeg queue hq hle
    simp only [relax]
    by_cases hd : indeg s - 1 = 0
    · rw [if_pos hd]
      have hs_not : s ∉ queue := fun hs => by
        have := hle s hs
        omega
      refine ih _ _ (by simp [List.nodup_append, hq, hs_not]) ?_
      intro x hx
      rcases List.mem_append.mp hx with h' | h'
      · have hxs : x ≠ s := fun he => hs_not (he ▸ h')
        rw [if_neg hxs]
        exact hle x h'
      · have hxs : x = s := by simpa using h'
        subst hxs
        rw [if_pos rfl]
        omega
    · rw [if_neg hd]
      refine ih _ _ hq ?_
      intro x hx
      by_cases hxs : x = s
      · subst hxs
        rw [if_pos rfl]
        have := hle x hx
        omega
      · rw [if_neg hxs]
        exact hle x hx

theorem lookup_some_mem {α β : Type _} [BEq α] [LawfulBEq α] {l : List (α × β)} {k : α}
    {v : β} (h : List.lookup k l = some v) : (k, v) ∈ l := by
  induction l with
  | nil => cases h
  | cons p t ih =>
    obtain ⟨a, b⟩ := p
    by_cases hk : k = a
    · subst hk
      simp only [List.lookup, beq_self_eq_true] at h
      cases h
      simp
    · simp only [List.lookup, beq_eq_false_iff_ne.mpr hk] at h
      exact List.mem_cons_of_mem _ (ih h)

theorem sum_nonneg_int : ∀ (l : List Int), (∀ x ∈ l, 0 ≤ x) → 0 ≤ l.sum := by
  intro l h
  induction l with
  | nil => simp
  | cons a t ih =>
    simp only [List.sum_cons]
    have := h a (by simp)
    have := ih (fun x hx => h x (by simp [hx]))
    omega

theorem sumUnproc_term_zero (g : Graph) (order : List Nat) (v : Nat)
    (h : sumUnproc g order v ≤ 0) :
    ∀ p ∈ g, p.1 ∉ order → (p.2.count v : Int) = 0 := by
  intro p hp hmem
  have hin : ((p.2.count v : Nat) : Int) ∈
      ((g.filter (fun p => decide (p.1 ∉ order))).map
        (fun p => ((p.2.count v : Nat) : Int))) := by
    exact List.mem_map_of_mem _ (List.mem_filter.mpr ⟨hp, by simpa using hmem⟩)
  have hle := List.single_le_sum (l := (g.filter (fun p => decide (p.1 ∉ order))).map
      (fun p => ((p.2.count v : Nat) : Int))) (by
    intro x hx
    rcases List.mem_map.mp hx with ⟨q, _, hq⟩
    rw [← hq]
    positivity) _ hin
  unfold sumUnproc at h
  omega

/-- If the pending in-degree of `x` is non-positive, no unplaced node has an
edge to `x`. -/
theorem no_unprocessed_edge (g : Graph) (order : List Nat) (x : Nat)
    (h : sumUnproc g order x ≤ 0) :
    ∀ w, w ∉ order → x ∉ adjOf g w := by
  intro w hw hmem
  unfold adjOf at hmem
  cases hl : List.lookup w g with
  | none => rw [hl] at hmem; cases hmem
  | some adj =>
    rw [hl] at hmem
    have hmem' : x ∈ adj := hmem
    have hcount := sumUnproc_term_zero g order x h (w, adj) (lookup_some_mem hl) hw
    simp only at hcount
    have hc0 : adj.count x = 0 := by omega
    exact absurd (List.count_pos_iff.mpr hmem') (by omega)

theorem sumUnproc_snoc (g : Graph) (Hkeys : (g.map Prod.fst).Nodup)
    (order : List Nat) (u : Nat) (hu : u ∉ order) (v : Nat) :
    sumUnproc g (order ++ [u]) v = sumUnproc g order v - ((adjOf g u).count v : Int) := by
  induction g with
  | nil => simp [sumUnproc, adjOf, List.lookup]
  | cons p t ih =>
    have hkeys' : (p.1 :: t.map Prod.fst).Nodup := by simpa using Hkeys
    have hp_not : p.1 ∉ t.map Prod.fst := (List.nodup_cons.mp hkeys').1
    have hkt : (t.map Prod.fst).Nodup := (List.nodup_cons.mp hkeys').2
    by_cases hpu : p.1 = u
    · -- the head entry is the one being removed from the pending set
      have hadj : adjOf (p :: t) u = p.2 := by
        unfold adjOf
        obtain ⟨a, b⟩ := p
        cases hpu
        simp [List.lookup]
      have hadj_t : adjOf t u = [] := by
        unfold adjOf
        cases hl : List.lookup u t with
        | none => rfl
        | some adj =>
          exact absurd (List.mem_map_of_mem Prod.fst (lookup_some_mem hl))
            (by simpa [hpu] using hp_not)
      have hnew : (p :: t).filter (fun q => decide (q.1 ∉ order ++ [u])) =
          t.filter (fun q => decide (q.1 ∉ order ++ [u])) := by
        rw [List.filter_cons]
        rw [if_neg (by simp [hpu])]
      have hold : (p :: t).filter (fun q => decide (q.1 ∉ order)) =
          p :: t.filter (fun q => decide (q.1 ∉ order)) := by
        rw [List.filter_cons, if_pos (by simpa [hpu] using hu)]
      have hih := ih hkt
      rw [hadj_t] at hih
      simp only [List.count_nil] at hih
      unfold sumUnproc
      rw [hnew, hold]
      unfold sumUnproc at hih
      simp only [List.map_cons, List.sum_cons]
      rw [hih, hadj]
      omega
    · -- the head entry is kept or dropped identically on both sides
      have hadj_eq : adjOf (p :: t) u = adjOf t u := by
        unfold adjOf
        obtain ⟨a, b⟩ := p
        simp only [List.lookup, beq_eq_false_iff_ne.mpr (fun h : u = a => hpu h.symm)]
      have hmem_iff : (p.1 ∈ order ++ [u]) ↔ p.1 ∈ order := by
        simp [hpu]
      have hih := ih hkt
      rw [hadj_eq]
      unfold sumUnproc
      rw [List.filter_cons, List.filter_cons]
      by_cases hmem : p.1 ∈ order
      · rw [if_neg (by simp [hmem_iff.mpr hmem]), if_neg (by simp [hmem])]
        exact hih
      · rw [if_pos (by simpa using fun h => hmem (hmem_iff.mp h)),
          if_pos (by simpa using hmem)]
        simp only [List.map_cons, List.sum_cons]
        unfold sumUnproc at hih
        rw [hih]
        omega

theorem indexOf_append_of_mem {a : Nat} {l : List Nat} (h : a ∈ l) (t : List Nat) :
    (l ++ t).indexOf a = l.indexOf a := by
  induction l with
  | nil => cases h
  | cons b l' ih =>
    by_cases hb : b = a
    · simp [List.indexOf_cons, hb]
    · have h' : a ∈ l' := by
        rcases List.mem_cons.mp h with h'' | h''
        · exact absurd h''.symm hb
        · exact h''
      simp [List.indexOf_cons, beq_eq_false_iff_ne.mpr hb, ih h']

theorem indexOf_append_of_not_mem {a : Nat} {l : List Nat} (h : a ∉ l) (t : List Nat) :
    (l ++ t).indexOf a = l.length + t.indexOf a := by
  induction l with
  | nil => simp
  | cons b l' ih =>
    have hb : b ≠ a := fun he => h (by simp [he])
    have h' : a ∉ l' := fun he => h (by simp [he])
    simp [List.indexOf_cons, beq_eq_false_iff_ne.mpr hb, ih h']
    omega

theorem length_le_of_nodup_lt {order : List Nat} {n : Nat} (hnd : order.Nodup)
    (hlt : ∀ v ∈ order, v < n) : order.length ≤ n := by
  have h1 : order.toFinset ⊆ Finset.range n := fun x hx =>
    Finset.mem_range.mpr (hlt x (List.mem_toFinset.mp hx))
  have h2 := Finset.card_le_card h1
  rwa [Finset.card_range, List.toFinset_card_of_nodup hnd] at h2

/-- The loop invariant of the Kahn sort: the placed prefix is duplicate-free
and in range, the queue holds fresh in-range nodes whose pending in-degree is
exhausted, `indeg` tracks the in-degree restricted to unplaced sources, and
every placed node has all of its predecessors placed before it. -/
structure KahnInv (g : Graph) (n : Nat) (queue : List Nat) (indeg : Nat → Int)
    (order : List Nat) : Prop where
  order_nodup : order.Nodup
  order_lt : ∀ v ∈ order, v < n
  queue_nodup : queue.Nodup
  queue_lt : ∀ v ∈ queue, v < n
  queue_fresh : ∀ v ∈ queue, v ∉ order
  indeg_spec : ∀ v, indeg v = sumUnproc g order v
  queue_done : ∀ v ∈ queue, indeg v ≤ 0
  placed_edges : ∀ u v, v ∈ adjOf g u → v ∈ order →
    u ∈ order ∧ order.indexOf u < order.indexOf v

theorem kahnLoop_spec (g : Graph) (n : Nat)
    (Hadj : ∀ u v, v ∈ adjOf g u → v < n)
    (Hkeys : (g.map Prod.fst).Nodup) :
    ∀ (fuel : Nat) (queue : List Nat) (indeg : Nat → Int) (order : List Nat),
      KahnInv g n queue indeg order → n < fuel + order.length →
      (kahnLoop g fuel queue indeg order).Nodup ∧
      (∀ v ∈ kahnLoop g fuel queue indeg order, v < n) ∧
      (∃ t, kahnLoop g fuel queue indeg order = order ++ t) ∧
      (∀ x ∈ queue, x ∈ kahnLoop g fuel queue indeg order) ∧
      (∀ u v, v ∈ adjOf g u → v ∈ kahnLoop g fuel queue indeg order →
        u ∈ kahnLoop g fuel queue indeg order ∧
        (kahnLoop g fuel queue indeg order).indexOf u <
          (kahnLoop g fuel queue indeg order).indexOf v) ∧
      (∀ i j x y, i < j → queue.get? i = some x → queue.get? j = some y →
        (kahnLoop g fuel queue indeg order).indexOf x <
          (kahnLoop g fuel queue indeg order).indexOf y) := by
  intro fuel
  induction fuel with
  | zero =>
    intro queue indeg order inv hfuel
    exact absurd (length_le_of_nodup_lt inv.order_nodup inv.order_lt) (by omega)
  | succ fuel ih =>
    intro queue indeg order inv hfuel
    cases queue with
    | nil =>
      simp only [kahnLoop]
      refine ⟨inv.order_nodup, inv.order_lt, ⟨[], by simp⟩, by simp, ?_, by simp⟩
      intro u v hadj hv
      exact inv.placed_edges u v hadj hv
    | cons u rest =>
      simp only [kahnLoop]
      -- facts about the dequeued node
      have hu_lt : u < n := inv.queue_lt u (by simp)
      have hu_fresh : u ∉ order := inv.queue_fresh u (by simp)
      have hu_done : indeg u ≤ 0 := inv.queue_done u (by simp)
      have hq' : (u :: rest).Nodup := inv.queue_nodup
      have hu_rest : u ∉ rest := (List.nodup_cons.mp hq').1
      have hrest_nodup : rest.Nodup := (List.nodup_cons.mp hq').2
      have hrest_done : ∀ x ∈ rest, indeg x ≤ 0 :=
        fun x hx => inv.queue_done x (by simp [hx])
      -- shape of the relax step
      obtain ⟨tq, htq⟩ := relax_queue_prefix (adjOf g u) indeg rest
      obtain ⟨hq2_nodup, hq2_done⟩ := relax_nodup (adjOf g u) indeg rest hrest_nodup hrest_done
      -- the new invariant
      have horder' : (order ++ [u]).Nodup := by simp [List.nodup_append, inv.order_nodup, hu_fresh]
      have hedge_to_u : ∀ w, u ∈ adjOf g w → w ∈ order := by
        intro w hw
        by_contra hwo
        exact no_unprocessed_edge g order u (by rw [← inv.indeg_spec u]; exact hu_done)
          w hwo hw
      have inv2 : KahnInv g n (relax (adjOf g u) indeg rest).2
          (relax (adjOf g u) indeg rest).1 (order ++ [u]) := by
        refine ⟨horder', ?_, hq2_nodup, ?_, ?_, ?_, hq2_done, ?_⟩
        · intro v hv
          rcases List.mem_append.mp hv with h | h
          · exact inv.order_lt v h
          · have : v = u := by simpa using h
            exact this ▸ hu_lt
        · intro v hv
          rcases relax_queue_mem (adjOf g u) indeg rest v hv with h | ⟨hmem, _⟩
          · exact inv.queue_lt v (by simp [h])
          · exact Hadj u v hmem
        · intro v hv hvo
          rcases relax_queue_mem (adjOf g u) indeg rest v hv with h | ⟨hmem, hpos⟩
          · rcases List.mem_append.mp hvo with h' | h'
            · exact inv.queue_fresh v (by simp [h]) h'
            · have : v = u := by simpa using h'
              exact hu_rest (this ▸ h)
          · rcases List.mem_append.mp hvo with h' | h'
            · exact absurd ((inv.placed_edges u v hmem h').1) hu_fresh
            · have hvu : v = u := by simpa using h'
              rw [hvu] at hpos
              omega
        · intro v
          rw [relax_indeg, inv.indeg_spec v,
            sumUnproc_snoc g Hkeys order u hu_fresh v]
        · intro w v hadj hvo
          rcases List.mem_append.mp hvo with h' | h'
          · obtain ⟨hw, hidx⟩ := inv.placed_edges w v hadj h'
            refine ⟨by simp [hw], ?_⟩
            rw [indexOf_append_of_mem hw [u], indexOf_append_of_mem h' [u]]
            exact hidx
          · have hvu : v = u := by simpa using h'
            have hw : w ∈ order := hedge_to_u w (hvu ▸ hadj)
            refine ⟨by simp [hw], ?_⟩
            rw [hvu, indexOf_append_of_mem hw [u], indexOf_append_of_not_mem hu_fresh [u]]
            have := List.indexOf_lt_length.mpr hw
            simp only [List.indexOf_cons, beq_self_eq_true]
            omega
      have hfuel2 : n < fuel + (order ++ [u]).length := by
        simp only [List.length_append, List.length_cons, List.length_nil]
        omega
      obtain ⟨R_nodup, R_lt, ⟨t, ht⟩, R_queue, R_edges, R_fifo⟩ :=
        ih (relax (adjOf g u) indeg rest).2 (relax (adjOf g u) indeg rest).1
          (order ++ [u]) inv2 hfuel2
      have hu_in_R : u ∈ kahnLoop g fuel (relax (adjOf g u) indeg rest).2
          (relax (adjOf g u) indeg rest).1 (order ++ [u]) := by
        rw [ht]; simp
      have hidx_u : (kahnLoop g fuel (relax (adjOf g u) indeg rest).2
          (relax (adjOf g u) indeg rest).1 (order ++ [u])).indexOf u = order.length := by
        rw [ht, List.append_assoc, indexOf_append_of_not_mem hu_fresh]
        simp [List.indexOf_cons]
      refine ⟨R_nodup, R_lt, ⟨[u] ++ t, by rw [ht, List.append_assoc]⟩, ?_, R_edges, ?_⟩
      · intro x hx
        rcases List.mem_cons.mp hx with h | h
        · exact h ▸ hu_in_R
        · exact R_queue x (htq ▸ List.mem_append.mpr (Or.inl h))
      · intro i j x y hij hx hy
        cases i with
        | zero =>
          have hxu : u = x := by simpa using hx
          obtain ⟨j', hj'⟩ : ∃ j', j = j' + 1 := ⟨j - 1, by omega⟩
          subst hj'
          have hy' : rest.get? j' = some y := by simpa using hy
          have hy_rest : y ∈ rest := List.mem_iff_get?.mpr ⟨j', hy'⟩
          have hy_q2 : y ∈ (relax (adjOf g u) indeg rest).2 := by
            rw [htq]; exact List.mem_append.mpr (Or.inl hy_rest)
          have hy_fresh : y ∉ order ++ [u] := inv2.queue_fresh y hy_q2
          rw [← hxu, hidx_u, ht, indexOf_append_of_not_mem hy_fresh]
          simp only [List.length_append, List.length_cons, List.length_nil]
          omega
        | succ i' =>
          obtain ⟨j', hj'⟩ : ∃ j', j = j' + 1 := ⟨j - 1, by omega⟩
          subst hj'
          have hx' : rest.get? i' = some x := by simpa using hx
          have hy' : rest.get? j' = some y := by simpa using hy
          have hi_lt : i' < rest.length := (List.get?_eq_some.mp hx').1
          have hj_lt : j' < rest.length := (List.get?_eq_some.mp hy').1
          have hx_q2 : (relax (adjOf g u) indeg rest).2.get? i' = some x := by
            rw [htq, List.get?_append hi_lt]; exact hx'
          have hy_q2 : (relax (adjOf g u) indeg rest).2.get? j' = some y := by
            rw [htq, List.get?_append hj_lt]; exact hy'
          exact R_fifo i' j' x y (by omega) hx_q2 hy_q2

theorem sumUnproc_nil (g : Graph) (v : Nat) : sumUnproc g [] v = inDegreeOf g v := by
  unfold sumUnproc inDegreeOf
  rw [List.filter_eq_self.mpr (fun a _ => by simp)]

theorem kahnSort_spec (g : Graph) (n : Nat)
    (Hadj : ∀ u v, v ∈ adjOf g u → v < n)
    (Hkeys : (g.map Prod.fst).Nodup) :
    (kahnSort g n).Nodup ∧
    (∀ v ∈ kahnSort g n, v < n) ∧
    (∀ u v, v ∈ adjOf g u → v ∈ kahnSort g n →
        u ∈ kahnSort g n ∧ (kahnSort g n).indexOf u < (kahnSort g n).indexOf v) ∧
    (∀ x, x < n → inDegreeOf g x = 0 → x ∈ kahnSort g n) ∧
    (∀ x y, x < n → y < n → x < y → inDegreeOf g x = 0 → inDegreeOf g y = 0 →
        (kahnSort g n).indexOf x < (kahnSort g n).indexOf y) := by
  have inv0 : KahnInv g n ((List.range n).filter (fun i => inDegreeOf g i == 0))
      (fun v => inDegreeOf g v) [] := by
    refine ⟨by simp, by simp, (List.nodup_range n).filter _, ?_, by simp, ?_, ?_, by simp⟩
    · intro v hv
      exact List.mem_range.mp (List.mem_filter.mp hv).1
    · intro v
      rw [sumUnproc_nil]
    · intro v hv
      have := (List.mem_filter.mp hv).2
      simp only [beq_iff_eq] at this
      omega
  obtain ⟨h1, h2, _, h4, h5, h6⟩ :=
    kahnLoop_spec g n Hadj Hkeys (n + 1)
      ((List.range n).filter (fun i => inDegreeOf g i == 0))
      (fun v => inDegreeOf g v) [] inv0 (by simp)
  refine ⟨h1, h2, h5, ?_, ?_⟩
  · intro x hx hdeg
    exact h4 x (List.mem_filter.mpr ⟨List.mem_range.mpr hx, by simp [hdeg]⟩)
  · intro x y hx hy hxy hdx hdy
    have hxq : x ∈ (List.range n).filter (fun i => inDegreeOf g i == 0) :=
      List.mem_filter.mpr ⟨List.mem_range.mpr hx, by simp [hdx]⟩
    have hyq : y ∈ (List.range n).filter (fun i => inDegreeOf g i == 0) :=
      List.mem_filter.mpr ⟨List.mem_range.mpr hy, by simp [hdy]⟩
    obtain ⟨i, hi⟩ := List.mem_iff_get?.mp hxq
    obtain ⟨j, hj⟩ := List.mem_iff_get?.mp hyq
    have hil := (List.get?_eq_some.mp hi).1
    have hjl := (List.get?_eq_some.mp hj).1
    have hgi := (List.get?_eq_some.mp hi).2
    have hgj := (List.get?_eq_some.mp hj).2
    have hpw : ((List.range n).filter (fun i => inDegreeOf g i == 0)).Pairwise (· < ·) :=
      List.Pairwise.filter _ (List.pairwise_lt_range n)
    have hij : i < j := by
      rcases Nat.lt_trichotomy i j with h | h | h
      · exact h
      · exfalso
        rw [h, hj] at hi
        have hxy' : y = x := by simpa using hi
        omega
      · exfalso
        have := List.pairwise_iff_get.mp hpw ⟨j, hjl⟩ ⟨i, hil⟩ h
        rw [hgi, hgj] at this
        omega
    exact h6 i j x y hij hi hj

/-- Transitive reachability along graph edges forces strictly increasing
positions in any list satisfying the topological property. -/
theorem transGen_indexOf_lt (g : Graph) (R : List Nat)
    (hR : ∀ u v, v ∈ adjOf g u → v ∈ R → u ∈ R ∧ R.indexOf u < R.indexOf v)
    {a b : Nat} (h : Relation.TransGen (fun x y => y ∈ adjOf g x) a b)
    (hb : b ∈ R) : a ∈ R ∧ R.indexOf a < R.indexOf b := by
  induction h with
  | single he => exact hR _ _ he hb
  | tail _ he ihp =>
    obtain ⟨hmid, hlt⟩ := hR _ _ he hb
    obtain ⟨ha, hlt'⟩ := ihp hmid
    exact ⟨ha, by omega⟩

/-- A node on a cycle is never placed by the sort. -/
theorem cycle_node_unplaced (g : Graph) (n : Nat)
    (Hadj : ∀ u v, v ∈ adjOf g u → v < n)
    (Hkeys : (g.map Prod.fst).Nodup) {v : Nat}
    (hcyc : Relation.TransGen (fun x y => y ∈ adjOf g x) v v) :
    v ∉ kahnSort g n := by
  intro hv
  obtain ⟨_, _, hedges, _, _⟩ := kahnSort_spec g n Hadj Hkeys
  obtain ⟨_, hlt⟩ := transGen_indexOf_lt g (kahnSort g n) hedges hcyc hv
  omega

theorem full_list_mem (l : List Nat) (n : Nat) (hnd : l.Nodup)
    (hlt : ∀ v ∈ l, v < n) (hlen : l.length = n) : ∀ x, x < n → x ∈ l := by
  intro x hx
  have hsub : l.toFinset ⊆ Finset.range n := fun a ha =>
    Finset.mem_range.mpr (hlt a (List.mem_toFinset.mp ha))
  have hcard : l.toFinset.card = (Finset.range n).card := by
    rw [List.toFinset_card_of_nodup hnd, hlen, Finset.card_range]
  have heq : l.toFinset = Finset.range n := Finset.eq_of_subset_of_card_le hsub (le_of_eq hcard.symm)
  exact List.mem_toFinset.mp (heq ▸ Finset.mem_range.mpr hx)

theorem full_list_perm (l : List Nat) (n : Nat) (hnd : l.Nodup)
    (hlt : ∀ v ∈ l, v < n) (hlen : l.length = n) : l.Perm (List.range n) := by
  apply List.perm_of_nodup_nodup_toFinset_eq hnd (List.nodup_range n)
  have hrt : (List.range n).toFinset = Finset.range n := by
    ext x
    simp
  rw [hrt]
  have hsub : l.toFinset ⊆ Finset.range n := fun a ha =>
    Finset.mem_range.mpr (hlt a (List.mem_toFinset.mp ha))
  have hcard : l.toFinset.card = (Finset.range n).card := by
    rw [List.toFinset_card_of_nodup hnd, hlen, Finset.card_range]
  exact Finset.eq_of_subset_of_card_le hsub (le_of_eq hcard.symm)

/-! ## Structure of the built dependency graph -/

theorem lookup_cons_eqn {κ α : Type _} [BEq κ] [LawfulBEq κ] [DecidableEq κ] (k a : κ)
    (b : α) (t : List (κ × α)) :
    List.lookup k ((a, b) :: t) = if k = a then some b else List.lookup k t := by
  by_cases h : k = a
  · subst h; simp [List.lookup]
  · simp [List.lookup, beq_eq_false_iff_ne.mpr h, h]

theorem lookup_append_generic {κ α : Type _} [BEq κ] [LawfulBEq κ] [DecidableEq κ]
    (l1 l2 : List (κ × α)) (k : κ) (h : List.lookup k l1 = none) :
    List.lookup k (l1 ++ l2) = List.lookup k l2 := by
  induction l1 with
  | nil => simp
  | cons p t ih =>
    obtain ⟨a, b⟩ := p
    rw [lookup_cons_eqn] at h
    by_cases hk : k = a
    · rw [if_pos hk] at h; cases h
    · rw [if_neg hk] at h
      rw [List.cons_append, lookup_cons_eqn, if_neg hk]
      exact ih h

theorem lookup_append_left_some {κ α : Type _} [BEq κ] [LawfulBEq κ] [DecidableEq κ]
    (l1 l2 : List (κ × α)) (k : κ) (v : α) (h : List.lookup k l1 = some v) :
    List.lookup k (l1 ++ l2) = some v := by
  induction l1 with
  | nil => cases h
  | cons p t ih =>
    obtain ⟨a, b⟩ := p
    rw [lookup_cons_eqn] at h
    rw [List.cons_append, lookup_cons_eqn]
    by_cases hk : k = a
    · rw [if_pos hk] at h
      rw [if_pos hk]
      exact h
    · rw [if_neg hk] at h
      rw [if_neg hk]
      exact ih h

theorem lookup_map_bump (t : List (Nat × List Nat)) (u v w : Nat) :
    List.lookup w (t.map (fun p => if p.1 = u then (p.1, p.2 ++ [v]) else p)) =
    (List.lookup w t).map (fun adj => if w = u then adj ++ [v] else adj) := by
  induction t with
  | nil => simp
  | cons p t ih =>
    obtain ⟨a, b⟩ := p
    simp only [List.map_cons]
    by_cases hau : a = u
    · rw [if_pos hau]
      rw [lookup_cons_eqn, lookup_cons_eqn]
      by_cases hwa : w = a
      · rw [if_pos hwa, if_pos hwa]
        simp [hwa.trans hau]
      · rw [if_neg hwa, if_neg hwa]
        exact ih
    · rw [if_neg hau]
      rw [lookup_cons_eqn, lookup_cons_eqn]
      by_cases hwa : w = a
      · rw [if_pos hwa, if_pos hwa]
        have hwu : ¬w = u := fun h => hau (hwa.symm.trans h)
        simp [hwu]
      · rw [if_neg hwa, if_neg hwa]
        exact ih

theorem adjOf_addEdge (g : Graph) (u v w : Nat) :
    adjOf (addEdge g u v) w = if w = u then adjOf g u ++ [v] else adjOf g w := by
  unfold addEdge adjOf
  by_cases hs : (List.lookup u g).isSome = true
  · rw [if_pos hs, lookup_map_bump]
    by_cases hwu : w = u
    · rw [if_pos hwu, hwu]
      obtain ⟨adj, hadj⟩ := Option.isSome_iff_exists.mp hs
      rw [hadj]
      simp
    · rw [if_neg hwu]
      cases hl : List.lookup w g <;> simp [hwu]
  · rw [if_neg hs]
    have hnone := option_eq_none_of_not_isSome hs
    by_cases hwu : w = u
    · rw [if_pos hwu, hwu, lookup_append_generic g _ u hnone, hnone, lookup_cons_eqn,
        if_pos rfl]
      simp
    · rw [if_neg hwu]
      cases hl : List.lookup w g with
      | some adj => rw [lookup_append_left_some g _ w adj hl]
      | none =>
        rw [lookup_append_generic g _ w hl, lookup_cons_eqn, if_neg hwu]
        simp [hl]

/-- Well-formedness of the built graph: unique keys, sources below `A`,
targets below `B`. -/
def GraphWF (g : Graph) (A B : Nat) : Prop :=
  (g.map Prod.fst).Nodup ∧ ∀ p ∈ g, p.1 < A ∧ ∀ x ∈ p.2, x < B

/-- Adjacency lists only ever grow during construction. -/
def GraphMono (g g' : Graph) : Prop := ∀ w, ∃ t, adjOf g' w = adjOf g w ++ t

theorem graphMono_refl (g : Graph) : GraphMono g g := fun w => ⟨[], by simp⟩

theorem graphMono_trans {g1 g2 g3 : Graph} (h1 : GraphMono g1 g2) (h2 : GraphMono g2 g3) :
    GraphMono g1 g3 := by
  intro w
  obtain ⟨t1, ht1⟩ := h1 w
  obtain ⟨t2, ht2⟩ := h2 w
  exact ⟨t1 ++ t2, by rw [ht2, ht1, List.append_assoc]⟩

theorem graphMono_mem {g g' : Graph} (h : GraphMono g g') {w x : Nat}
    (hx : x ∈ adjOf g w) : x ∈ adjOf g' w := by
  obtain ⟨t, ht⟩ := h w
  rw [ht]
  exact List.mem_append.mpr (Or.inl hx)

theorem addEdge_mono (g : Graph) (u v : Nat) : GraphMono g (addEdge g u v) := by
  intro w
  rw [adjOf_addEdge]
  by_cases h : w = u
  · rw [if_pos h, h]
    exact ⟨[v], rfl⟩
  · rw [if_neg h]
    exact ⟨[], by simp⟩

theorem not_mem_keys_of_lookup_none_generic {κ α : Type _} [BEq κ] [LawfulBEq κ]
    [DecidableEq κ] {m : List (κ × α)} {k : κ}
    (h : List.lookup k m = none) : k ∉ m.map Prod.fst := by
  induction m with
  | nil => simp
  | cons p t ih =>
    obtain ⟨a, b⟩ := p
    rw [lookup_cons_eqn] at h
    by_cases hk : k = a
    · rw [if_pos hk] at h; cases h
    · rw [if_neg hk] at h
      simpa [hk] using ih h

theorem addEdge_wf {g : Graph} {A B : Nat} (h : GraphWF g A B) {u v : Nat}
    (hu : u < A) (hv : v < B) : GraphWF (addEdge g u v) A B := by
  obtain ⟨hkeys, hmem⟩ := h
  unfold addEdge
  by_cases hs : (List.lookup u g).isSome = true
  · rw [if_pos hs]
    constructor
    · have : (g.map (fun p => if p.1 = u then (p.1, p.2 ++ [v]) else p)).map Prod.fst =
          g.map Prod.fst := by
        rw [List.map_map]
        apply List.map_congr_left
        intro p _
        by_cases hp : p.1 = u <;> simp [hp]
      rw [this]
      exact hkeys
    · intro p hp
      rcases List.mem_map.mp hp with ⟨q, hq, hfq⟩
      obtain ⟨hq1, hq2⟩ := hmem q hq
      by_cases hqu : q.1 = u
      · rw [if_pos hqu] at hfq
        rw [← hfq]
        refine ⟨hq1, ?_⟩
        intro x hx
        rcases List.mem_append.mp hx with h' | h'
        · exact hq2 x h'
        · have : x = v := by simpa using h'
          exact this ▸ hv
      · rw [if_neg hqu] at hfq
        exact hfq ▸ hmem q hq
  · rw [if_neg hs]
    constructor
    · simp only [List.map_append, List.map_cons, List.map_nil]
      rw [List.nodup_append]
      refine ⟨hkeys, by simp, ?_⟩
      intro x hx hx2
      have hxu : x = u := by simpa using hx2
      exact not_mem_keys_of_lookup_none_generic (option_eq_none_of_not_isSome hs) (hxu ▸ hx)
    · intro p hp
      rcases List.mem_append.mp hp with h' | h'
      · exact hmem p h'
      · have hpu : p = (u, [v]) := by simpa using h'
        subst hpu
        exact ⟨hu, by simpa using hv⟩

theorem idToIndex_fold_prop (s : String) (P : Nat → Prop) :
    ∀ (l : List (Nat × String)) (acc : Option Nat),
    (∀ j, acc = some j → P j) → (∀ p ∈ l, p.2 = s → P p.1) →
    ∀ j, l.foldl (fun acc p => if p.2 = s then some p.1 else acc) acc = some j → P j := by
  intro l
  induction l with
  | nil => intro acc hacc _ j hj; exact hacc j hj
  | cons p t ih =>
    intro acc hacc hl j hj
    simp only [List.foldl_cons] at hj
    refine ih _ ?_ (fun q hq => hl q (by simp [hq])) j hj
    intro j' hj'
    by_cases hp : p.2 = s
    · rw [if_pos hp] at hj'
      cases hj'
      exact hl p (by simp) hp
    · rw [if_neg hp] at hj'
      exact hacc j' hj'

theorem idToIndex_lt (ids : List String) (s : String) (j : Nat)
    (h : idToIndex ids s = some j) : j < ids.length := by
  refine idToIndex_fold_prop s (fun j => j < ids.length) ids.enum none (by simp) ?_ j h
  intro p hp _
  have := List.mem_enum_iff_get?.mp hp
  exact (List.get?_eq_some.mp this).1

theorem idToIndex_get (ids : List String) (s : String) (j : Nat)
    (h : idToIndex ids s = some j) : ids.get? j = some s := by
  refine idToIndex_fold_prop s (fun j => ids.get? j = some s) ids.enum none (by simp) ?_ j h
  intro p hp hps
  have := List.mem_enum_iff_get?.mp hp
  rw [← hps]
  exact this

theorem idToIndex_isSome_of_mem (ids : List String) (s : String) (h : s ∈ ids) :
    (idToIndex ids s).isSome = true := by
  unfold idToIndex
  obtain ⟨j, hj⟩ := List.mem_iff_get?.mp h
  have hmem : (j, s) ∈ ids.enum := List.mem_enum_iff_get?.mpr hj
  have stays : ∀ (l : List (Nat × String)) (acc : Option Nat), acc.isSome = true →
      (l.foldl (fun acc p => if p.2 = s then some p.1 else acc) acc).isSome = true := by
    intro l
    induction l with
    | nil => intro acc h; exact h
    | cons p t ih =>
      intro acc hacc
      simp only [List.foldl_cons]
      refine ih _ ?_
      by_cases hp : p.2 = s
      · rw [if_pos hp]; rfl
      · rw [if_neg hp]; exact hacc
  have reach : ∀ (l : List (Nat × String)) (acc : Option Nat), (j, s) ∈ l →
      (l.foldl (fun acc p => if p.2 = s then some p.1 else acc) acc).isSome = true := by
    intro l
    induction l with
    | nil => intro acc hm; cases hm
    | cons p t ih =>
      intro acc hm
      simp only [List.foldl_cons]
      rcases List.mem_cons.mp hm with h' | h'
      · rw [← h']
        simp only [if_pos rfl]
        exact stays t (some j) rfl
      · by_cases hp : p.2 = s
        · rw [if_pos hp]
          exact stays t (some p.1) rfl
        · rw [if_neg hp]
          exact ih _ h'
  exact reach ids.enum none hmem

theorem depEdges_mono (ids : List String) (i : Nat) :
    ∀ (deps : List Value) (g : Graph), GraphMono g (depEdges ids i deps g).1 := by
  intro deps
  induction deps with
  | nil => intro g; exact graphMono_refl g
  | cons dep rest ih =>
    intro g
    cases dep with
    | str d =>
      cases hidx : idToIndex ids (pyStrip d) with
      | none => simp only [depEdges, hidx]; exact ih g
      | some j =>
        simp only [depEdges, hidx]
        exact graphMono_trans (addEdge_mono g j i) (ih (addEdge g j i))
    | null => exact ih g
    | bool b => exact ih g
    | num n => exact ih g
    | arr l => exact ih g
    | obj m => exact ih g

theorem depEdges_wf (ids : List String) (i : Nat) {A B : Nat}
    (hA : ids.length ≤ A) (hiB : i < B) :
    ∀ (deps : List Value) (g : Graph), GraphWF g A B →
    GraphWF (depEdges ids i deps g).1 A B := by
  intro deps
  induction deps with
  | nil => intro g hg; exact hg
  | cons dep rest ih =>
    intro g hg
    cases dep with
    | str d =>
      cases hidx : idToIndex ids (pyStrip d) with
      | none => simp only [depEdges, hidx]; exact ih g hg
      | some j =>
        simp only [depEdges, hidx]
        have hj : j < A := lt_of_lt_of_le (idToIndex_lt ids (pyStrip d) j hidx) hA
        exact ih (addEdge g j i) (addEdge_wf hg hj hiB)
    | null => exact ih g hg
    | bool b => exact ih g hg
    | num n => exact ih g hg
    | arr l => exact ih g hg
    | obj m => exact ih g hg

theorem depEdges_complete (ids : List String) (i : Nat) :
    ∀ (deps : List Value) (g : Graph) (d : String) (j : Nat),
    Value.str d ∈ deps → idToIndex ids (pyStrip d) = some j →
    i ∈ adjOf (depEdges ids i deps g).1 j := by
  intro deps
  induction deps with
  | nil => intro g d j hmem; cases hmem
  | cons dep rest ih =>
    intro g d j hmem hidx
    rcases List.mem_cons.mp hmem with hh | ht
    · cases hh.symm
      simp only [depEdges, hidx]
      have hstep : i ∈ adjOf (addEdge g j i) j := by
        rw [adjOf_addEdge, if_pos rfl]
        simp
      exact graphMono_mem (depEdges_mono ids i rest (addEdge g j i)) hstep
    · cases dep with
      | str d2 =>
        cases hidx2 : idToIndex ids (pyStrip d2) with
        | none =>
          simp only [depEdges, hidx2]
          exact ih g d j ht hidx
        | some j2 =>
          simp only [depEdges, hidx2]
          exact ih (addEdge g j2 i) d j ht hidx
      | null => exact ih g d j ht hidx
      | bool b => exact ih g d j ht hidx
      | num n => exact ih g d j ht hidx
      | arr l => exact ih g d j ht hidx
      | obj m => exact ih g d j ht hidx

theorem depEdges_errors_empty (ids : List String) (i : Nat) :
    ∀ (deps : List Value) (g : Graph), (depEdges ids i deps g).2 = [] →
    ∀ d : String, Value.str d ∈ deps → (idToIndex ids (pyStrip d)).isSome = true := by
  intro deps
  induction deps with
  | nil => intro g _ d hmem; cases hmem
  | cons dep rest ih =>
    intro g herr d hmem
    rcases List.mem_cons.mp hmem with hh | ht
    · cases hh.symm
      cases hidx : idToIndex ids (pyStrip d) with
      | none =>
        simp only [depEdges, hidx] at herr
        cases herr
      | some j => simp [hidx]
    · cases dep with
      | str d2 =>
        cases hidx2 : idToIndex ids (pyStrip d2) with
        | none =>
          simp only [depEdges, hidx2] at herr
          cases herr
        | some j2 =>
          simp only [depEdges, hidx2] at herr
          exact ih (addEdge g j2 i) herr d ht
      | null => exact ih g herr d ht
      | bool b => exact ih g herr d ht
      | num n => exact ih g herr d ht
      | arr l => exact ih g herr d ht
      | obj m => exact ih g herr d ht

theorem refEdges_mono (reg : Registry) (steps : List Value) (ids : List String) (i : Nat) :
    ∀ (inputs : List (String × Value)) (g : Graph),
    GraphMono g (refEdges reg steps ids i inputs g).1 := by
  intro inputs
  induction inputs with
  | nil => intro g; exact graphMono_refl g
  | cons p rest ih =>
    intro g
    obtain ⟨key, val⟩ := p
    by_cases href : is_ref val = true
    · cases val with
      | str s =>
        cases hp : parse_ref s with
        | none => simp only [refEdges, href, if_true, hp]; exact ih g
        | some pr =>
          obtain ⟨ref_sid, out_name⟩ := pr
          cases hidx : idToIndex ids ref_sid with
          | none => simp only [refEdges, href, if_true, hp, hidx]; exact ih g
          | some ref_index =>
            simp only [refEdges, href, if_true, hp, hidx]
            by_cases hout : out_name ∈ (match reg (refAtomIdOf steps ref_index) with
                | some ra => atomOutputs ra
                | none => [])
            · rw [if_pos hout]
              by_cases hin : i ∈ adjOf g ref_index
              · rw [if_pos hin]; exact ih g
              · rw [if_neg hin]
                exact graphMono_trans (addEdge_mono g ref_index i) (ih _)
            · rw [if_neg hout]
              exact ih g
      | null => simp [is_ref] at href
      | bool b => simp [is_ref] at href
      | num n => simp [is_ref] at href
      | arr l => simp [is_ref] at href
      | obj m => simp [is_ref] at href
    · have hrf : is_ref val = false := by
        cases hiv : is_ref val
        · rfl
        · exact absurd hiv href
      simp only [refEdges, hrf]
      exact ih g

theorem refEdges_wf (reg : Registry) (steps : List Value) (ids : List String) (i : Nat)
    {A B : Nat} (hA : ids.length ≤ A) (hiB : i < B) :
    ∀ (inputs : List (String × Value)) (g : Graph), GraphWF g A B →
    GraphWF (refEdges reg steps ids i inputs g).1 A B := by
  intro inputs
  induction inputs with
  | nil => intro g hg; exact hg
  | cons p rest ih =>
    intro g hg
    obtain ⟨key, val⟩ := p
    by_cases href : is_ref val = true
    · cases val with
      | str s =>
        cases hp : parse_ref s with
        | none => simp only [refEdges, href, if_true, hp]; exact ih g hg
        | some pr =>
          obtain ⟨ref_sid, out_name⟩ := pr
          cases hidx : idToIndex ids ref_sid with
          | none => simp only [refEdges, href, if_true, hp, hidx]; exact ih g hg
          | some ref_index =>
            simp only [refEdges, href, if_true, hp, hidx]
            have hj : ref_index < A :=
              lt_of_lt_of_le (idToIndex_lt ids ref_sid ref_index hidx) hA
            by_cases hout : out_name ∈ (match reg (refAtomIdOf steps ref_index) with
                | some ra => atomOutputs ra
                | none => [])
            · rw [if_pos hout]
              by_cases hin : i ∈ adjOf g ref_index
              · rw [if_pos hin]; exact ih g hg
              · rw [if_neg hin]
                exact ih _ (addEdge_wf hg hj hiB)
            · rw [if_neg hout]
              exact ih g hg
      | null => simp [is_ref] at href
      | bool b => simp [is_ref] at href
      | num n => simp [is_ref] at href
      | arr l => simp [is_ref] at href
      | obj m => simp [is_ref] at href
    · have hrf : is_ref val = false := by
        cases hiv : is_ref val
        · rfl
        · exact absurd hiv href
      simp only [refEdges, hrf]
      exact ih g hg

theorem refEdges_complete (reg : Registry) (steps : List Value) (ids : List String)
    (i : Nat) :
    ∀ (inputs : List (String × Value)) (g : Graph),
    (refEdges reg steps ids i inputs g).2 = [] →
    ∀ key s ref_sid out_name, (key, Value.str s) ∈ inputs →
    parse_ref s = some (ref_sid, out_name) →
    ∃ j, idToIndex ids ref_sid = some j ∧ i ∈ adjOf (refEdges reg steps ids i inputs g).1 j := by
  intro inputs
  induction inputs with
  | nil => intro g _ key s rs on_ hmem; cases hmem
  | cons p rest ih =>
    intro g herr key s ref_sid out_name hmem hp
    rcases List.mem_cons.mp hmem with hh | ht
    · have hkey : p = (key, Value.str s) := hh.symm
      subst hkey
      have href : is_ref (Value.str s) = true := by simp [is_ref, hp]
      cases hidx : idToIndex ids ref_sid with
      | none =>
        simp only [refEdges, href, if_true, hp, hidx] at herr
        cases herr
      | some ref_index =>
        by_cases hout : out_name ∈ (match reg (refAtomIdOf steps ref_index) with
            | some ra => atomOutputs ra
            | none => [])
        · refine ⟨ref_index, rfl, ?_⟩
          simp only [refEdges, href, if_true, hp, hidx, if_pos hout]
          by_cases hin : i ∈ adjOf g ref_index
          · rw [if_pos hin]
            exact graphMono_mem (refEdges_mono reg steps ids i rest g) hin
          · rw [if_neg hin]
            have hstep : i ∈ adjOf (addEdge g ref_index i) ref_index := by
              rw [adjOf_addEdge, if_pos rfl]
              simp
            exact graphMono_mem (refEdges_mono reg steps ids i rest _) hstep
        · simp only [refEdges, href, if_true, hp, hidx, if_neg hout] at herr
          cases herr
    · -- the pair occurs further down; reduce the head and recurse
      obtain ⟨key', val'⟩ := p
      by_cases href : is_ref val' = true
      · cases val' with
        | str s' =>
          cases hp' : parse_ref s' with
          | none =>
            simp only [refEdges, href, if_true, hp'] at herr ⊢
            exact ih g herr key s ref_sid out_name ht hp
          | some pr' =>
            obtain ⟨rs', on'⟩ := pr'
            cases hidx' : idToIndex ids rs' with
            | none =>
              simp only [refEdges, href, if_true, hp', hidx'] at herr
              cases herr
            | some ri' =>
              by_cases hout' : on' ∈ (match reg (refAtomIdOf steps ri') with
                  | some ra => atomOutputs ra
                  | none => [])
              · simp only [refEdges, href, if_true, hp', hidx', if_pos hout'] at herr ⊢
                exact ih _ herr key s ref_sid out_name ht hp
              · simp only [refEdges, href, if_true, hp', hidx', if_neg hout'] at herr
                cases herr
        | null => simp [is_ref] at href
        | bool b => simp [is_ref] at href
        | num n => simp [is_ref] at href
        | arr l => simp [is_ref] at href
        | obj m => simp [is_ref] at href
      · have hrf : is_ref val' = false := by
          cases hiv : is_ref val'
          · rfl
          · exact absurd hiv href
        simp only [refEdges, hrf] at herr ⊢
        exact ih g herr key s ref_sid out_name ht hp

theorem stepGraph_mono (reg : Registry) (steps : List Value) (ids : List String)
    (i : Nat) (step : Value) (g : Graph) :
    GraphMono g (stepGraph reg steps ids i step g).1 := by
  cases step with
  | obj s =>
    exact graphMono_trans (depEdges_mono ids i (stepDeps (.obj s)) g)
      (refEdges_mono reg steps ids i (stepInputsOf (.obj s)) _)
  | null => exact graphMono_refl g
  | bool b => exact graphMono_refl g
  | num n => exact graphMono_refl g
  | str s => exact graphMono_refl g
  | arr l => exact graphMono_refl g

theorem stepGraph_wf (reg : Registry) (steps : List Value) (ids : List String)
    (i : Nat) (step : Value) (g : Graph) {A B : Nat}
    (hA : ids.length ≤ A) (hiB : i < B) (hg : GraphWF g A B) :
    GraphWF (stepGraph reg steps ids i step g).1 A B := by
  cases step with
  | obj s =>
    exact refEdges_wf reg steps ids i hA hiB (stepInputsOf (.obj s)) _
      (depEdges_wf ids i hA hiB (stepDeps (.obj s)) g hg)
  | null => exact hg
  | bool b => exact hg
  | num n => exact hg
  | str s => exact hg
  | arr l => exact hg

theorem stepGraph_errors_split (reg : Registry) (steps : List Value) (ids : List String)
    (i : Nat) (step : Value) (g : Graph)
    (h : (stepGraph reg steps ids i step g).2 = []) :
    (depEdges ids i (stepDeps step) g).2 = [] ∧
    (refEdges reg steps ids i (stepInputsOf step) (depEdges ids i (stepDeps step) g).1).2 = [] := by
  cases step with
  | obj s =>
    simp only [stepGraph] at h
    exact List.append_eq_nil.mp h
  | null => exact ⟨rfl, by simpa using h⟩
  | bool b => exact ⟨rfl, by simpa using h⟩
  | num n => exact ⟨rfl, by simpa using h⟩
  | str s => exact ⟨rfl, by simpa using h⟩
  | arr l => exact ⟨rfl, by simpa using h⟩

theorem stepGraph_complete_dep (reg : Registry) (steps : List Value) (ids : List String)
    (i : Nat) (step : Value) (g : Graph) (d : String) (j : Nat)
    (hmem : Value.str d ∈ stepDeps step) (hidx : idToIndex ids (pyStrip d) = some j) :
    i ∈ adjOf (stepGraph reg steps ids i step g).1 j := by
  cases step with
  | obj s =>
    exact graphMono_mem (refEdges_mono reg steps ids i (stepInputsOf (.obj s)) _)
      (depEdges_complete ids i (stepDeps (.obj s)) g d j hmem hidx)
  | null => cases hmem
  | bool b => cases hmem
  | num n => cases hmem
  | str s => cases hmem
  | arr l => cases hmem

theorem stepGraph_complete_ref (reg : Registry) (steps : List Value) (ids : List String)
    (i : Nat) (step : Value) (g : Graph)
    (herr : (stepGraph reg steps ids i step g).2 = [])
    (key s ref_sid out_name : String)
    (hmem : (key, Value.str s) ∈ stepInputsOf step)
    (hp : parse_ref s = some (ref_sid, out_name)) :
    ∃ j, idToIndex ids ref_sid = some j ∧
      i ∈ adjOf (stepGraph reg steps ids i step g).1 j := by
  cases step with
  | obj s' =>
    obtain ⟨_, hr⟩ := stepGraph_errors_split reg steps ids i (.obj s') g herr
    exact refEdges_complete reg steps ids i (stepInputsOf (.obj s')) _
      hr key s ref_sid out_name hmem hp
  | null => cases hmem
  | bool b => cases hmem
  | num n => cases hmem
  | str s2 => cases hmem
  | arr l => cases hmem

theorem stepGraph_deps_known (reg : Registry) (steps : List Value) (ids : List String)
    (i : Nat) (step : Value) (g : Graph)
    (herr : (stepGraph reg steps ids i step g).2 = [])
    (d : String) (hmem : Value.str d ∈ stepDeps step) :
    (idToIndex ids (pyStrip d)).isSome = true := by
  obtain ⟨hd, _⟩ := stepGraph_errors_split reg steps ids i step g herr
  exact depEdges_errors_empty ids i (stepDeps step) g hd d hmem

theorem buildGraph_fold_mono (reg : Registry) (steps : List Value) (ids : List String) :
    ∀ (l : List (Nat × Value)) (acc : Graph × List VError),
    GraphMono acc.1 ((l.foldl (fun acc p =>
      ((stepGraph reg steps ids p.1 p.2 acc.1).1,
       acc.2 ++ (stepGraph reg steps ids p.1 p.2 acc.1).2)) acc)).1 := by
  intro l
  induction l with
  | nil => intro acc; exact graphMono_refl acc.1
  | cons p t ih =>
    intro acc
    simp only [List.foldl_cons]
    exact graphMono_trans (stepGraph_mono reg steps ids p.1 p.2 acc.1) (ih _)

theorem buildGraph_fold_errs (reg : Registry) (steps : List Value) (ids : List String) :
    ∀ (l : List (Nat × Value)) (acc : Graph × List VError),
    ∃ t, ((l.foldl (fun acc p =>
      ((stepGraph reg steps ids p.1 p.2 acc.1).1,
       acc.2 ++ (stepGraph reg steps ids p.1 p.2 acc.1).2)) acc)).2 = acc.2 ++ t := by
  intro l
  induction l with
  | nil => intro acc; exact ⟨[], by simp⟩
  | cons p t ih =>
    intro acc
    simp only [List.foldl_cons]
    obtain ⟨t2, ht2⟩ := ih ((stepGraph reg steps ids p.1 p.2 acc.1).1,
       acc.2 ++ (stepGraph reg steps ids p.1 p.2 acc.1).2)
    exact ⟨(stepGraph reg steps ids p.1 p.2 acc.1).2 ++ t2,
      by rw [ht2, List.append_assoc]⟩

theorem buildGraph_fold_wf (reg : Registry) (steps : List Value) (ids : List String)
    {A B : Nat} (hA : ids.length ≤ A) :
    ∀ (l : List (Nat × Value)) (acc : Graph × List VError),
    GraphWF acc.1 A B → (∀ p ∈ l, p.1 < B) →
    GraphWF ((l.foldl (fun acc p =>
      ((stepGraph reg steps ids p.1 p.2 acc.1).1,
       acc.2 ++ (stepGraph reg steps ids p.1 p.2 acc.1).2)) acc)).1 A B := by
  intro l
  induction l with
  | nil => intro acc hg _; exact hg
  | cons p t ih =>
    intro acc hg hb
    simp only [List.foldl_cons]
    exact ih _ (stepGraph_wf reg steps ids p.1 p.2 acc.1 hA (hb p (by simp)) hg)
      (fun q hq => hb q (by simp [hq]))

theorem buildGraph_fold_complete (reg : Registry) (steps : List Value) (ids : List String) :
    ∀ (l : List (Nat × Value)) (acc : Graph × List VError),
    ((l.foldl (fun acc p =>
      ((stepGraph reg steps ids p.1 p.2 acc.1).1,
       acc.2 ++ (stepGraph reg steps ids p.1 p.2 acc.1).2)) acc)).2 = [] →
    ∀ i step, (i, step) ∈ l →
    (∀ d j, Value.str d ∈ stepDeps step → idToIndex ids (pyStrip d) = some j →
      i ∈ adjOf ((l.foldl (fun acc p =>
        ((stepGraph reg steps ids p.1 p.2 acc.1).1,
         acc.2 ++ (stepGraph reg steps ids p.1 p.2 acc.1).2)) acc)).1 j) ∧
    (∀ key s ref_sid out_name, (key, Value.str s) ∈ stepInputsOf step →
      parse_ref s = some (ref_sid, out_name) →
      ∃ j, idToIndex ids ref_sid = some j ∧
        i ∈ adjOf ((l.foldl (fun acc p =>
          ((stepGraph reg steps ids p.1 p.2 acc.1).1,
           acc.2 ++ (stepGraph reg steps ids p.1 p.2 acc.1).2)) acc)).1 j) ∧
    (∀ d, Value.str d ∈ stepDeps step → (idToIndex ids (pyStrip d)).isSome = true) := by
  intro l
  induction l with
  | nil => intro acc _ i step hmem; cases hmem
  | cons p t ih =>
    intro acc herr i step hmem
    simp only [List.foldl_cons] at herr ⊢
    have hstep_err : (stepGraph reg steps ids p.1 p.2 acc.1).2 = [] := by
      obtain ⟨tt, htt⟩ := buildGraph_fold_errs reg steps ids t
        ((stepGraph reg steps ids p.1 p.2 acc.1).1,
         acc.2 ++ (stepGraph reg steps ids p.1 p.2 acc.1).2)
      rw [htt] at herr
      simp only [List.append_assoc] at herr
      have := List.append_eq_nil.mp herr
      exact (List.append_eq_nil.mp this.2).1
    rcases List.mem_cons.mp hmem with hh | ht
    · have hp : p = (i, step) := hh.symm
      subst hp
      refine ⟨?_, ?_, ?_⟩
      · intro d j hd hidx
        exact graphMono_mem (buildGraph_fold_mono reg steps ids t _)
          (stepGraph_complete_dep reg steps ids i step acc.1 d j hd hidx)
      · intro key s ref_sid out_name hk hp2
        obtain ⟨j, hj, hmemj⟩ := stepGraph_complete_ref reg steps ids i step acc.1
          hstep_err key s ref_sid out_name hk hp2
        exact ⟨j, hj, graphMono_mem (buildGraph_fold_mono reg steps ids t _) hmemj⟩
      · intro d hd
        exact stepGraph_deps_known reg steps ids i step acc.1 hstep_err d hd
    · exact ih _ herr i step ht

/-! ## From the validator's stages to the graph facts -/

theorem schema_ok_steps_obj (steps : List Value) (plan : List (String × Value))
    (h : schemaStageErrors steps plan = []) :
    ∀ st ∈ steps, ∃ m, st = Value.obj m := by
  intro st hst
  obtain ⟨i, hi⟩ := List.mem_iff_get?.mp hst
  have hpair : (i, st) ∈ steps.enum := List.mem_enum_iff_get?.mpr hi
  have hflat : ((steps.enum.map (fun p => stepSchemaErrors p.1 p.2)).flatten) = [] := by
    unfold schemaStageErrors at h
    exact (List.append_eq_nil.mp h).1
  have hone : stepSchemaErrors i st = [] := by
    rw [List.flatten_eq_nil_iff] at hflat
    exact hflat _ (List.mem_map_of_mem _ hpair)
  cases st with
  | obj m => exact ⟨m, rfl⟩
  | null => simp [stepSchemaErrors] at hone
  | bool b => simp [stepSchemaErrors] at hone
  | num n => simp [stepSchemaErrors] at hone
  | str s => simp [stepSchemaErrors] at hone
  | arr l => simp [stepSchemaErrors] at hone

theorem stepIds_eq_map (steps : List Value)
    (hobj : ∀ st ∈ steps, ∃ m, st = Value.obj m) :
    stepIdsOf steps = steps.enum.map (fun p => step_identifier p.2 p.1) := by
  unfold stepIdsOf
  have : ∀ l : List (Nat × Value), (∀ p ∈ l, ∃ m, p.2 = Value.obj m) →
      l.filterMap (fun p => match p.2 with
        | .obj _ => some (step_identifier p.2 p.1)
        | _ => none) = l.map (fun p => step_identifier p.2 p.1) := by
    intro l
    induction l with
    | nil => intro _; rfl
    | cons p t ih =>
      intro hl
      obtain ⟨m, hm⟩ := hl p (by simp)
      simp only [List.filterMap_cons, List.map_cons, hm]
      rw [ih (fun q hq => hl q (by simp [hq]))]
  refine this steps.enum ?_
  intro p hp
  have := List.mem_enum_iff_get?.mp hp
  exact hobj p.2 (List.mem_iff_get?.mpr ⟨p.1, this⟩)

theorem enum_get? (l : List Value) (i : Nat) :
    l.enum.get? i = (l.get? i).map (fun st => (i, st)) := List.enum_get? l i

theorem stepIds_get (steps : List Value)
    (hobj : ∀ st ∈ steps, ∃ m, st = Value.obj m) (i : Nat) :
    (stepIdsOf steps).get? i = (steps.get? i).map (fun st => step_identifier st i) := by
  rw [stepIds_eq_map steps hobj, List.get?_map, enum_get?]
  cases steps.get? i <;> simp

theorem stepIds_length (steps : List Value)
    (hobj : ∀ st ∈ steps, ∃ m, st = Value.obj m) :
    (stepIdsOf steps).length = steps.length := by
  rw [stepIds_eq_map steps hobj, List.length_map, List.enum_length]

theorem dupErrsAux_nil (l : List (Nat × String)) :
    ∀ seen, dupErrsAux l seen = [] →
    (∀ p ∈ l, p.2 ∉ seen) ∧ (l.map Prod.snd).Nodup := by
  induction l with
  | nil => intro seen _; exact ⟨by simp, by simp⟩
  | cons p t ih =>
    intro seen h
    obtain ⟨i, sid⟩ := p
    simp only [dupErrsAux] at h
    have hsplit := List.append_eq_nil.mp h
    have hsid : sid ∉ seen := by
      by_contra hc
      rw [if_pos hc] at hsplit
      cases hsplit.1
    obtain ⟨ht1, ht2⟩ := ih (seen ++ [sid]) hsplit.2
    refine ⟨?_, ?_⟩
    · intro q hq
      rcases List.mem_cons.mp hq with hh | htq
      · rw [hh]
        exact hsid
      · intro hqs
        exact ht1 q htq (List.mem_append.mpr (Or.inl hqs))
    · simp only [List.map_cons]
      rw [List.nodup_cons]
      refine ⟨?_, ht2⟩
      intro hc
      rcases List.mem_map.mp hc with ⟨q, hq, hq2⟩
      exact ht1 q hq (by simp [hq2])

theorem duplicateErrors_nil_nodup (ids : List String)
    (h : duplicateErrors ids = []) : ids.Nodup := by
  have := (dupErrsAux_nil ids.enum [] h).2
  rwa [List.enum_map_snd] at this

theorem map_range_getD (ids : List String) :
    (List.range ids.length).map (fun k => ids.getD k "") = ids := by
  apply List.ext
  intro k
  rw [List.get?_map]
  by_cases hk : k < ids.length
  · rw [List.get?_range hk]
    cases hs : ids.get? k with
    | none => exact absurd hs (by simp [List.get?_eq_getElem?, hk])
    | some s =>
      show some (ids.getD k "") = some s
      rw [List.getD_eq_getElem?_getD, ← List.get?_eq_getElem?, hs]
      rfl
  · have hk' : ids.length ≤ k := by omega
    rw [List.get?_eq_none.mpr (by simpa using hk'), List.get?_eq_none.mpr hk']
    rfl

theorem indexOf_map_inj (f : Nat → String) (l : List Nat) (x : Nat)
    (hinj : ∀ z ∈ l, f z = f x → z = x) :
    (l.map f).indexOf (f x) = l.indexOf x := by
  induction l with
  | nil => simp
  | cons y t ih =>
    by_cases hyx : y = x
    · simp [List.indexOf_cons, hyx]
    · have hfy : f y ≠ f x := fun he => hyx (hinj y (by simp) he)
      simp only [List.map_cons, List.indexOf_cons, beq_eq_false_iff_ne.mpr hyx,
        beq_eq_false_iff_ne.mpr hfy]
      simp [ih (fun z hz => hinj z (by simp [hz]))]

theorem nodup_getD_inj (ids : List String) (hnd : ids.Nodup) (x z : Nat)
    (hx : x < ids.length) (hz : z < ids.length)
    (h : ids.getD z "" = ids.getD x "") : z = x := by
  have hzx : ids.get ⟨z, hz⟩ = ids.get ⟨x, hx⟩ := by
    have h1 : ids.getD z "" = ids.get ⟨z, hz⟩ := by
      rw [List.getD_eq_getElem?_getD, ← List.get?_eq_getElem?, List.get?_eq_get hz]
      rfl
    have h2 : ids.getD x "" = ids.get ⟨x, hx⟩ := by
      rw [List.getD_eq_getElem?_getD, ← List.get?_eq_getElem?, List.get?_eq_get hx]
      rfl
    rw [← h1, ← h2, h]
  have := (List.Nodup.get_inj_iff hnd).mp hzx
  exact congrArg Fin.val this

theorem enum_fst_lt (steps : List Value) : ∀ p ∈ steps.enum, p.1 < steps.length := by
  intro p hp
  have := List.mem_enum_iff_get?.mp hp
  exact (List.get?_eq_some.mp this).1

theorem buildGraph_wf (reg : Registry) (steps : List Value) (ids : List String) :
    GraphWF (buildGraph reg steps ids).1 ids.length steps.length := by
  have h0 : GraphWF ([] : Graph) ids.length steps.length := by
    exact ⟨List.nodup_nil, by intro p hp; cases hp⟩
  exact buildGraph_fold_wf reg steps ids (le_refl _) steps.enum ([], []) h0
    (enum_fst_lt steps)

theorem buildGraph_complete (reg : Registry) (steps : List Value) (ids : List String)
    (herr : (buildGraph reg steps ids).2 = [])
    (i : Nat) (step : Value) (hget : steps.get? i = some step) :
    (∀ d j, Value.str d ∈ stepDeps step → idToIndex ids (pyStrip d) = some j →
      i ∈ adjOf (buildGraph reg steps ids).1 j) ∧
    (∀ key s ref_sid out_name, (key, Value.str s) ∈ stepInputsOf step →
      parse_ref s = some (ref_sid, out_name) →
      ∃ j, idToIndex ids ref_sid = some j ∧
        i ∈ adjOf (buildGraph reg steps ids).1 j) ∧
    (∀ d, Value.str d ∈ stepDeps step → (idToIndex ids (pyStrip d)).isSome = true) := by
  have hmem : (i, step) ∈ steps.enum := List.mem_enum_iff_get?.mpr hget
  exact buildGraph_fold_complete reg steps ids steps.enum ([], []) herr i step hmem

theorem validate_plan_valid_inv (doc : List (String × Value)) (reg : Registry)
    (ws : List VError) (eo : List String)
    (h : validate_plan (.obj doc) reg = .valid ws eo) :
    targetPlanErrors doc ++ stepsFieldErrors ((planObjOf doc).lookup "steps") = [] ∧
    schemaStageErrors (stepsOfPlan (planObjOf doc)) (planObjOf doc) = [] ∧
    duplicateErrors (stepIdsOf (stepsOfPlan (planObjOf doc))) = [] ∧
    atomStageErrors reg (stepsOfPlan (planObjOf doc)) = [] ∧
    (buildGraph reg (stepsOfPlan (planObjOf doc))
      (stepIdsOf (stepsOfPlan (planObjOf doc)))).2 = [] ∧
    (kahnSort (buildGraph reg (stepsOfPlan (planObjOf doc))
        (stepIdsOf (stepsOfPlan (planObjOf doc)))).1
      (stepsOfPlan (planObjOf doc)).length).length =
      (stepsOfPlan (planObjOf doc)).length ∧
    ws = [] ∧
    eo = (kahnSort (buildGraph reg (stepsOfPlan (planObjOf doc))
        (stepIdsOf (stepsOfPlan (planObjOf doc)))).1
      (stepsOfPlan (planObjOf doc)).length).map
        (fun i => (stepIdsOf (stepsOfPlan (planObjOf doc))).getD i "") := by
  simp only [validate_plan] at h
  by_cases h12 : (targetPlanErrors doc ++
      stepsFieldErrors ((planObjOf doc).lookup "steps")).isEmpty
  · rw [if_pos h12] at h
    by_cases h34 : (schemaStageErrors (stepsOfPlan (planObjOf doc)) (planObjOf doc)).isEmpty
    · rw [if_pos h34] at h
      by_cases hSem : (duplicateErrors (stepIdsOf (stepsOfPlan (planObjOf doc))) ++
          atomStageErrors reg (stepsOfPlan (planObjOf doc)) ++
          (buildGraph reg (stepsOfPlan (planObjOf doc))
            (stepIdsOf (stepsOfPlan (planObjOf doc)))).2).isEmpty
      · rw [if_pos hSem] at h
        simp only [topoStage] at h
        by_cases hlen : (kahnSort (buildGraph reg (stepsOfPlan (planObjOf doc))
            (stepIdsOf (stepsOfPlan (planObjOf doc)))).1
            (stepsOfPlan (planObjOf doc)).length).length =
            (stepsOfPlan (planObjOf doc)).length
        · rw [if_pos hlen] at h
          have hSem' := isEmpty_true_iff.mp hSem
          have hs1 := List.append_eq_nil.mp hSem'
          have hs2 := List.append_eq_nil.mp hs1.1
          refine ⟨isEmpty_true_iff.mp h12, isEmpty_true_iff.mp h34, hs2.1, hs2.2,
            hs1.2, hlen, ?_, ?_⟩
          · cases h
            rfl
          · cases h
            rfl
        · rw [if_neg hlen] at h
          cases h
      · rw [if_neg hSem] at h
        cases h
    · rw [if_neg h34] at h
      cases h
  · rw [if_neg h12] at h
    cases h

theorem adjOf_mem_wf {g : Graph} {A B : Nat} (hwf : GraphWF g A B) :
    ∀ u v, v ∈ adjOf g u → v < B := by
  intro u v hv
  unfold adjOf at hv
  cases hl : g.lookup u with
  | none => rw [hl] at hv; cases hv
  | some l =>
    rw [hl] at hv
    exact (hwf.2 (u, l) (lookup_some_mem hl)).2 v hv

theorem valid_plan_facts (doc : List (String × Value)) (reg : Registry)
    (ws : List VError) (eo : List String)
    (h : validate_plan (.obj doc) reg = .valid ws eo) :
    (∀ st ∈ stepsOfPlan (planObjOf doc), ∃ m, st = Value.obj m) ∧
    (stepIdsOf (stepsOfPlan (planObjOf doc))).length = (stepsOfPlan (planObjOf doc)).length ∧
    (stepIdsOf (stepsOfPlan (planObjOf doc))).Nodup ∧
    (buildGraph reg (stepsOfPlan (planObjOf doc))
      (stepIdsOf (stepsOfPlan (planObjOf doc)))).2 = [] ∧
    (kahnSort (buildGraph reg (stepsOfPlan (planObjOf doc))
        (stepIdsOf (stepsOfPlan (planObjOf doc)))).1
      (stepsOfPlan (planObjOf doc)).length).Nodup ∧
    (∀ v ∈ kahnSort (buildGraph reg (stepsOfPlan (planObjOf doc))
        (stepIdsOf (stepsOfPlan (planObjOf doc)))).1
      (stepsOfPlan (planObjOf doc)).length, v < (stepsOfPlan (planObjOf doc)).length) ∧
    (kahnSort (buildGraph reg (stepsOfPlan (planObjOf doc))
        (stepIdsOf (stepsOfPlan (planObjOf doc)))).1
      (stepsOfPlan (planObjOf doc)).length).length = (stepsOfPlan (planObjOf doc)).length ∧
    (∀ x, x < (stepsOfPlan (planObjOf doc)).length →
      x ∈ kahnSort (buildGraph reg (stepsOfPlan (planObjOf doc))
        (stepIdsOf (stepsOfPlan (planObjOf doc)))).1
      (stepsOfPlan (planObjOf doc)).length) ∧
    eo = (kahnSort (buildGraph reg (stepsOfPlan (planObjOf doc))
        (stepIdsOf (stepsOfPlan (planObjOf doc)))).1
      (stepsOfPlan (planObjOf doc)).length).map
        (fun i => (stepIdsOf (stepsOfPlan (planObjOf doc))).getD i "") ∧
    (∀ u v, v ∈ adjOf (buildGraph reg (stepsOfPlan (planObjOf doc))
        (stepIdsOf (stepsOfPlan (planObjOf doc)))).1 u →
      v ∈ kahnSort (buildGraph reg (stepsOfPlan (planObjOf doc))
        (stepIdsOf (stepsOfPlan (planObjOf doc)))).1 (stepsOfPlan (planObjOf doc)).length →
      u ∈ kahnSort (buildGraph reg (stepsOfPlan (planObjOf doc))
        (stepIdsOf (stepsOfPlan (planObjOf doc)))).1 (stepsOfPlan (planObjOf doc)).length ∧
      (kahnSort (buildGraph reg (stepsOfPlan (planObjOf doc))
        (stepIdsOf (stepsOfPlan (planObjOf doc)))).1
        (stepsOfPlan (planObjOf doc)).length).indexOf u <
      (kahnSort (buildGraph reg (stepsOfPlan (planObjOf doc))
        (stepIdsOf (stepsOfPlan (planObjOf doc)))).1
        (stepsOfPlan (planObjOf doc)).length).indexOf v) ∧
    (∀ x y, x < (stepsOfPlan (planObjOf doc)).length →
      y < (stepsOfPlan (planObjOf doc)).length → x < y →
      inDegreeOf (buildGraph reg (stepsOfPlan (planObjOf doc))
        (stepIdsOf (stepsOfPlan (planObjOf doc)))).1 x = 0 →
      inDegreeOf (buildGraph reg (stepsOfPlan (planObjOf doc))
        (stepIdsOf (stepsOfPlan (planObjOf doc)))).1 y = 0 →
      (kahnSort (buildGraph reg (stepsOfPlan (planObjOf doc))
        (stepIdsOf (stepsOfPlan (planObjOf doc)))).1
        (stepsOfPlan (planObjOf doc)).length).indexOf x <
      (kahnSort (buildGraph reg (stepsOfPlan (planObjOf doc))
        (stepIdsOf (stepsOfPlan (planObjOf doc)))).1
        (stepsOfPlan (planObjOf doc)).length).indexOf y) := by
  obtain ⟨h12, h34, hdup, hatom, hge, hlen, hws, heo⟩ :=
    validate_plan_valid_inv doc reg ws eo h
  have hobj := schema_ok_steps_obj _ _ h34
  have hidlen := stepIds_length _ hobj
  have hnd := duplicateErrors_nil_nodup _ hdup
  have hwf := buildGraph_wf reg (stepsOfPlan (planObjOf doc))
    (stepIdsOf (stepsOfPlan (planObjOf doc)))
  have Hadj := adjOf_mem_wf hwf
  obtain ⟨hndo, hlto, hedges, _, hseedord⟩ :=
    kahnSort_spec (buildGraph reg (stepsOfPlan (planObjOf doc))
      (stepIdsOf (stepsOfPlan (planObjOf doc)))).1
      (stepsOfPlan (planObjOf doc)).length Hadj hwf.1
  exact ⟨hobj, hidlen, hnd, hge, hndo, hlto, hlen,
    full_list_mem _ _ hndo hlto hlen, heo, hedges, hseedord⟩

/-- Claim-level dependency edge `a → b`: some step of the plan, whose
effective identifier is `b`, either lists a string in `depends_on` that
strips to `a`, or holds an input value that is a reference expression to
step `a`. -/
def dependsEdge (steps : List Value) (a b : String) : Prop :=
  ∃ i step, steps.get? i = some step ∧ step_identifier step i = b ∧
    ((∃ d, Value.str d ∈ stepDeps step ∧ pyStrip d = a) ∨
     (∃ key s out_name, (key, Value.str s) ∈ stepInputsOf step ∧
        parse_ref s = some (a, out_name)))

/-- **C1.** For every plan document and registry for which `validate_plan`
returns valid, the returned `execution_order` is a permutation of the
effective step ids of the plan, and for every dependency edge `a → b`
(explicit `depends_on` edges and implicit input-reference edges), `a`
appears strictly before `b` in `execution_order`. -/
theorem validate_plan_topological (doc : List (String × Value)) (reg : Registry)
    (ws : List VError) (eo : List String)
    (h : validate_plan (.obj doc) reg = .valid ws eo) :
    eo.Perm (stepIdsOf (stepsOfPlan (planObjOf doc))) ∧
    ∀ a b, dependsEdge (stepsOfPlan (planObjOf doc)) a b →
      a ∈ eo ∧ b ∈ eo ∧ eo.indexOf a < eo.indexOf b := by
  obtain ⟨hobj, hidlen, hnd, hge, hndo, hlto, hleno, hfull, heo, hedges, _⟩ :=
    valid_plan_facts doc reg ws eo h
  constructor
  · rw [heo]
    have hperm := (full_list_perm _ _ hndo hlto hleno).map
      (fun i => (stepIdsOf (stepsOfPlan (planObjOf doc))).getD i "")
    have hmr : (List.range (stepsOfPlan (planObjOf doc)).length).map
        (fun i => (stepIdsOf (stepsOfPlan (planObjOf doc))).getD i "") =
        stepIdsOf (stepsOfPlan (planObjOf doc)) := by
      rw [← hidlen]
      exact map_range_getD _
    rwa [hmr] at hperm
  · intro a b hedge
    obtain ⟨i, step, hget, hb, hcase⟩ := hedge
    have hi : i < (stepsOfPlan (planObjOf doc)).length := (List.get?_eq_some.mp hget).1
    have hids_i : (stepIdsOf (stepsOfPlan (planObjOf doc))).get? i = some b := by
      rw [stepIds_get _ hobj i, hget]
      simp [hb]
    obtain ⟨j, hj, hadj⟩ : ∃ j, (stepIdsOf (stepsOfPlan (planObjOf doc))).get? j = some a ∧
        i ∈ adjOf (buildGraph reg (stepsOfPlan (planObjOf doc))
          (stepIdsOf (stepsOfPlan (planObjOf doc)))).1 j := by
      obtain ⟨hc1, hc2, hc3⟩ := buildGraph_complete reg (stepsOfPlan (planObjOf doc))
        (stepIdsOf (stepsOfPlan (planObjOf doc))) hge i step hget
      rcases hcase with ⟨d, hd, hstrip⟩ | ⟨key, s, out_name, hk, hp⟩
      · obtain ⟨j, hj⟩ := Option.isSome_iff_exists.mp (hc3 d hd)
        refine ⟨j, ?_, hc1 d j hd hj⟩
        have := idToIndex_get _ (pyStrip d) j hj
        rwa [hstrip] at this
      · obtain ⟨j, hj, hmemj⟩ := hc2 key s a out_name hk hp
        exact ⟨j, idToIndex_get _ a j hj, hmemj⟩
    have hjlt : j < (stepIdsOf (stepsOfPlan (planObjOf doc))).length :=
      (List.get?_eq_some.mp hj).1
    have hilt : i < (stepIdsOf (stepsOfPlan (planObjOf doc))).length :=
      (List.get?_eq_some.mp hids_i).1
    have hio := hfull i hi
    obtain ⟨hjo, hlt⟩ := hedges j i hadj hio
    have hfa : (stepIdsOf (stepsOfPlan (planObjOf doc))).getD j "" = a := by
      rw [List.getD_eq_getElem?_getD, ← List.get?_eq_getElem?, hj]
      rfl
    have hfb : (stepIdsOf (stepsOfPlan (planObjOf doc))).getD i "" = b := by
      rw [List.getD_eq_getElem?_getD, ← List.get?_eq_getElem?, hids_i]
      rfl
    have hIa : eo.indexOf a = (kahnSort (buildGraph reg (stepsOfPlan (planObjOf doc))
        (stepIdsOf (stepsOfPlan (planObjOf doc)))).1
        (stepsOfPlan (planObjOf doc)).length).indexOf j := by
      rw [heo, ← hfa]
      exact indexOf_map_inj _ _ j (fun z hz hzeq =>
        nodup_getD_inj _ hnd j z hjlt (hidlen ▸ hlto z hz) hzeq)
    have hIb : eo.indexOf b = (kahnSort (buildGraph reg (stepsOfPlan (planObjOf doc))
        (stepIdsOf (stepsOfPlan (planObjOf doc)))).1
        (stepsOfPlan (planObjOf doc)).length).indexOf i := by
      rw [heo, ← hfb]
      exact indexOf_map_inj _ _ i (fun z hz hzeq =>
        nodup_getD_inj _ hnd i z hilt (hidlen ▸ hlto z hz) hzeq)
    refine ⟨?_, ?_, ?_⟩
    · rw [heo, ← hfa]
      exact List.mem_map_of_mem _ hjo
    · rw [heo, ← hfb]
      exact List.mem_map_of_mem _ hio
    · rw [hIa, hIb]
      exact hlt

/-! Concrete three-step plan exercising the topological-order theorem:
step `a`, step `b` depending on `a`, and an independent step `c`. -/

def wStepA : Value := Value.obj [("id", Value.str "pkg.dom.act"),
  ("target", Value.str "t"), ("inputs", Value.obj []), ("step_id", Value.str "a")]

def wStepB : Value := Value.obj [("id", Value.str "pkg.dom.act"),
  ("target", Value.str "t"), ("inputs", Value.obj []), ("step_id", Value.str "b"),
  ("depends_on", Value.arr [Value.str "a"])]

def wStepC : Value := Value.obj [("id", Value.str "pkg.dom.act"),
  ("target", Value.str "t"), ("inputs", Value.obj []), ("step_id", Value.str "c")]

def wDoc : List (String × Value) := [("target", Value.str "goal"),
  ("plan", Value.obj [("steps", Value.arr [wStepA, wStepB, wStepC])])]

def wReg : Registry := fun aid =>
  if aid = "pkg.dom.act" then some ⟨[], []⟩ else none

theorem validate_plan_topological_witness :
    validate_plan (Value.obj wDoc) wReg = VResult.valid [] ["a", "c", "b"] ∧
    ((["a", "c", "b"] : List String).Perm (stepIdsOf (stepsOfPlan (planObjOf wDoc))) ∧
     ∀ a b, dependsEdge (stepsOfPlan (planObjOf wDoc)) a b →
       a ∈ (["a", "c", "b"] : List String) ∧ b ∈ (["a", "c", "b"] : List String) ∧
       (["a", "c", "b"] : List String).indexOf a <
         (["a", "c", "b"] : List String).indexOf b) :=
  ⟨rfl, validate_plan_topological wDoc wReg [] ["a", "c", "b"] rfl⟩

/-- **C3.** For every plan that passes all earlier validation stages and whose
dependency graph contains a cycle, `validate_plan` returns the invalid shape
(which carries no `execution_order`) with a single `CIRCULAR_DEPENDENCY`
error naming the effective ids of the nodes not placed by the topological
sort. -/
theorem cyclic_plan_rejected (doc : List (String × Value)) (reg : Registry)
    (h12 : targetPlanErrors doc ++ stepsFieldErrors ((planObjOf doc).lookup "steps") = [])
    (h34 : schemaStageErrors (stepsOfPlan (planObjOf doc)) (planObjOf doc) = [])
    (hSem : duplicateErrors (stepIdsOf (stepsOfPlan (planObjOf doc))) ++
      atomStageErrors reg (stepsOfPlan (planObjOf doc)) ++
      (buildGraph reg (stepsOfPlan (planObjOf doc))
        (stepIdsOf (stepsOfPlan (planObjOf doc)))).2 = [])
    (hcyc : ∃ v, Relation.TransGen (fun x y => y ∈ adjOf (buildGraph reg
      (stepsOfPlan (planObjOf doc)) (stepIdsOf (stepsOfPlan (planObjOf doc)))).1 x) v v) :
    validate_plan (.obj doc) reg = .invalid
      [⟨"CIRCULAR_DEPENDENCY",
        circularMsg (((List.range (stepsOfPlan (planObjOf doc)).length).filter
          (fun i => decide (i ∉ kahnSort (buildGraph reg (stepsOfPlan (planObjOf doc))
            (stepIdsOf (stepsOfPlan (planObjOf doc)))).1
            (stepsOfPlan (planObjOf doc)).length))).map
          (fun i => (stepIdsOf (stepsOfPlan (planObjOf doc))).getD i "")),
        "plan.steps"⟩] := by
  have hwf := buildGraph_wf reg (stepsOfPlan (planObjOf doc))
    (stepIdsOf (stepsOfPlan (planObjOf doc)))
  have Hadj := adjOf_mem_wf hwf
  obtain ⟨v, hv⟩ := hcyc
  have hvn : v < (stepsOfPlan (planObjOf doc)).length := by
    cases hv with
    | single he => exact Hadj _ _ he
    | tail _ he => exact Hadj _ _ he
  have hunpl := cycle_node_unplaced _ _ Hadj hwf.1 hv
  obtain ⟨hndo, hlto, _, _, _⟩ := kahnSort_spec (buildGraph reg
    (stepsOfPlan (planObjOf doc)) (stepIdsOf (stepsOfPlan (planObjOf doc)))).1
    (stepsOfPlan (planObjOf doc)).length Hadj hwf.1
  have hlen_ne : (kahnSort (buildGraph reg (stepsOfPlan (planObjOf doc))
      (stepIdsOf (stepsOfPlan (planObjOf doc)))).1
      (stepsOfPlan (planObjOf doc)).length).length ≠
      (stepsOfPlan (planObjOf doc)).length := by
    intro heq
    exact hunpl (full_list_mem _ _ hndo hlto heq v hvn)
  simp only [validate_plan]
  rw [if_pos (isEmpty_true_iff.mpr h12), if_pos (isEmpty_true_iff.mpr h34),
      if_pos (isEmpty_true_iff.mpr hSem)]
  simp only [topoStage]
  rw [if_neg hlen_ne]

/-! Concrete cyclic plan: step `a` depends on `b` and step `b` depends on
`a`. -/

def cStepA : Value := Value.obj [("id", Value.str "pkg.dom.act"),
  ("target", Value.str "t"), ("inputs", Value.obj []), ("step_id", Value.str "a"),
  ("depends_on", Value.arr [Value.str "b"])]

def cStepB : Value := Value.obj [("id", Value.str "pkg.dom.act"),
  ("target", Value.str "t"), ("inputs", Value.obj []), ("step_id", Value.str "b"),
  ("depends_on", Value.arr [Value.str "a"])]

def cDoc : List (String × Value) := [("target", Value.str "goal"),
  ("plan", Value.obj [("steps", Value.arr [cStepA, cStepB])])]

theorem cyclic_plan_rejected_witness :
    validate_plan (Value.obj cDoc) wReg = VResult.invalid
      [⟨"CIRCULAR_DEPENDENCY",
        "Circular dependency among steps: [\x27a\x27, \x27b\x27]", "plan.steps"⟩] := by
  have h1 : (1 : Nat) ∈ adjOf (buildGraph wReg (stepsOfPlan (planObjOf cDoc))
      (stepIdsOf (stepsOfPlan (planObjOf cDoc)))).1 0 := by
    rw [show adjOf (buildGraph wReg (stepsOfPlan (planObjOf cDoc))
      (stepIdsOf (stepsOfPlan (planObjOf cDoc)))).1 0 = [1] from rfl]
    exact List.mem_singleton.mpr rfl
  have h2 : (0 : Nat) ∈ adjOf (buildGraph wReg (stepsOfPlan (planObjOf cDoc))
      (stepIdsOf (stepsOfPlan (planObjOf cDoc)))).1 1 := by
    rw [show adjOf (buildGraph wReg (stepsOfPlan (planObjOf cDoc))
      (stepIdsOf (stepsOfPlan (planObjOf cDoc)))).1 1 = [0] from rfl]
    exact List.mem_singleton.mpr rfl
  exact cyclic_plan_rejected cDoc wReg rfl rfl rfl
    ⟨0, Relation.TransGen.tail (Relation.TransGen.single h1) h2⟩

/-- Claim-level notion for the tie-break claim: with the steps in `placed`
already placed, step `v` is runnable when it is unplaced and the source of
every edge into `v` is placed. -/
def runnableAfter (g : Graph) (placed : List Nat) (v : Nat) : Prop :=
  v ∉ placed ∧ ∀ u, v ∈ adjOf g u → u ∈ placed

/-- The claimed tie-break rule, following the spec's words: at every position
of the produced order, the step placed next is the declaration-earliest among
the steps runnable at that point. -/
def declOrderTieBreak (g : Graph) (order : List Nat) : Prop :=
  ∀ k b, order.get? k = some b → ∀ a, runnableAfter g (order.take k) a → b ≤ a

/-- **C4** (counterexample). The three-step plan `a`, `b` (depends on `a`),
`c` validates to execution order `["a", "c", "b"]`: after placing `a`, the
sort places step 2 (`c`) although step 1 (`b`), declared earlier, is also
runnable — the queue is FIFO, so declaration order is *not* the tie-break
among simultaneously runnable steps. -/
theorem kahn_tiebreak_counterexample :
    validate_plan (Value.obj wDoc) wReg = VResult.valid [] ["a", "c", "b"] ∧
    ¬ declOrderTieBreak (buildGraph wReg (stepsOfPlan (planObjOf wDoc))
        (stepIdsOf (stepsOfPlan (planObjOf wDoc)))).1
      (kahnSort (buildGraph wReg (stepsOfPlan (planObjOf wDoc))
        (stepIdsOf (stepsOfPlan (planObjOf wDoc)))).1
        (stepsOfPlan (planObjOf wDoc)).length) := by
  have hG : (buildGraph wReg (stepsOfPlan (planObjOf wDoc))
      (stepIdsOf (stepsOfPlan (planObjOf wDoc)))).1 = [(0, [1])] := rfl
  have horder : kahnSort (buildGraph wReg (stepsOfPlan (planObjOf wDoc))
      (stepIdsOf (stepsOfPlan (planObjOf wDoc)))).1
      (stepsOfPlan (planObjOf wDoc)).length = [0, 2, 1] := rfl
  refine ⟨rfl, ?_⟩
  intro hprop
  have hrun : runnableAfter (buildGraph wReg (stepsOfPlan (planObjOf wDoc))
      (stepIdsOf (stepsOfPlan (planObjOf wDoc)))).1 ([0, 2, 1].take 1) 1 := by
    constructor
    · decide
    · intro u hu
      rw [hG] at hu
      by_cases hu0 : u = 0
      · subst hu0
        decide
      · exfalso
        have h0u : (u == (0 : Nat)) = false := beq_eq_false_iff_ne.mpr hu0
        simp [adjOf, List.lookup, h0u] at hu
  have h21 := hprop 1 2 (by rw [horder]; rfl) 1 (by rw [horder]; exact hrun)
  omega

/-- **C4** (amended). What the FIFO queue does guarantee: any two steps with
no incoming dependency edges (in-degree zero in the built graph) appear in
`execution_order` in their declaration order.  (Declaration order is *not*
the tie-break among steps that become runnable later; see the
counterexample.) -/
theorem kahn_seed_declaration_order (doc : List (String × Value)) (reg : Registry)
    (ws : List VError) (eo : List String)
    (h : validate_plan (.obj doc) reg = .valid ws eo)
    (x y : Nat) (hx : x < (stepsOfPlan (planObjOf doc)).length)
    (hy : y < (stepsOfPlan (planObjOf doc)).length) (hxy : x < y)
    (hdx : inDegreeOf (buildGraph reg (stepsOfPlan (planObjOf doc))
      (stepIdsOf (stepsOfPlan (planObjOf doc)))).1 x = 0)
    (hdy : inDegreeOf (buildGraph reg (stepsOfPlan (planObjOf doc))
      (stepIdsOf (stepsOfPlan (planObjOf doc)))).1 y = 0) :
    eo.indexOf ((stepIdsOf (stepsOfPlan (planObjOf doc))).getD x "") <
    eo.indexOf ((stepIdsOf (stepsOfPlan (planObjOf doc))).getD y "") := by
  obtain ⟨hobj, hidlen, hnd, hge, hndo, hlto, hleno, hfull, heo, hedges, hseedord⟩ :=
    valid_plan_facts doc reg ws eo h
  have hIx : eo.indexOf ((stepIdsOf (stepsOfPlan (planObjOf doc))).getD x "") =
      (kahnSort (buildGraph reg (stepsOfPlan (planObjOf doc))
        (stepIdsOf (stepsOfPlan (planObjOf doc)))).1
        (stepsOfPlan (planObjOf doc)).length).indexOf x := by
    rw [heo]
    exact indexOf_map_inj _ _ x (fun z hz hzeq =>
      nodup_getD_inj _ hnd x z (hidlen ▸ hx) (hidlen ▸ hlto z hz) hzeq)
  have hIy : eo.indexOf ((stepIdsOf (stepsOfPlan (planObjOf doc))).getD y "") =
      (kahnSort (buildGraph reg (stepsOfPlan (planObjOf doc))
        (stepIdsOf (stepsOfPlan (planObjOf doc)))).1
        (stepsOfPlan (planObjOf doc)).length).indexOf y := by
    rw [heo]
    exact indexOf_map_inj _ _ y (fun z hz hzeq =>
      nodup_getD_inj _ hnd y z (hidlen ▸ hy) (hidlen ▸ hlto z hz) hzeq)
  rw [hIx, hIy]
  exact hseedord x y hx hy hxy hdx hdy

theorem kahn_seed_declaration_order_witness :
    (["a", "c", "b"] : List String).indexOf
        ((stepIdsOf (stepsOfPlan (planObjOf wDoc))).getD 0 "") <
    (["a", "c", "b"] : List String).indexOf
        ((stepIdsOf (stepsOfPlan (planObjOf wDoc))).getD 2 "") :=
  kahn_seed_declaration_order wDoc wReg [] ["a", "c", "b"] rfl 0 2
    (by decide) (by decide) (by decide) rfl rfl

theorem resolve_callable_error_code (env : ActionEnv) (atom_id : String)
    (e : ExecutorError) (h : resolve_callable env atom_id = .error e) :
    e.code = "UNRESOLVED_ATOM" := by
  unfold resolve_callable at h
  by_cases hc : atom_id.data.count '.' + 1 < 3
  · rw [if_pos hc] at h
    cases h
    rfl
  · rw [if_neg hc] at h
    cases henv : env atom_id with
    | some fn => rw [henv] at h; cases h
    | none =>
      rw [henv] at h
      cases h
      rfl

theorem resolve_inputs_error_code :
    ∀ (inputs : List (String × Value)) (ctx : List (String × List (String × Value)))
      (acc : List (String × Value)) (e : ExecutorError),
    resolve_inputs inputs ctx acc = .error e → e.code = "UNRESOLVED_REF" := by
  intro inputs
  induction inputs with
  | nil => intro ctx acc e h; cases h
  | cons p rest ih =>
    intro ctx acc e h
    obtain ⟨key, value⟩ := p
    cases value with
    | str s =>
      cases hp : parse_ref s with
      | none =>
        simp only [resolve_inputs, hp] at h
        exact ih ctx _ e h
      | some pr =>
        obtain ⟨rsid, oname⟩ := pr
        simp only [resolve_inputs, hp] at h
        cases hctx : ctx.lookup rsid with
        | none =>
          rw [hctx] at h
          cases h
          rfl
        | some souts =>
          rw [hctx] at h
          dsimp only at h
          cases hout : souts.lookup oname with
          | none =>
            rw [hout] at h
            cases h
            rfl
          | some ov =>
            rw [hout] at h
            dsimp only at h
            exact ih ctx _ e h
    | null => simp only [resolve_inputs] at h; exact ih ctx _ e h
    | bool b => simp only [resolve_inputs] at h; exact ih ctx _ e h
    | num n => simp only [resolve_inputs] at h; exact ih ctx _ e h
    | arr l => simp only [resolve_inputs] at h; exact ih ctx _ e h
    | obj m => simp only [resolve_inputs] at h; exact ih ctx _ e h

theorem execLoop_spec (tbl : List (String × List (String × Value))) (reg : Registry)
    (env : ActionEnv) :
    ∀ (eo : List Value) (ctx : List (String × List (String × Value)))
      (acc : List StepResult) (res : ExecutionResult),
    execLoop tbl reg env eo ctx acc = some res →
    (res.success = true →
      res.error = none ∧
      ∃ news, res.step_results = acc ++ news ∧
        (∀ sr ∈ news, sr.status = "completed") ∧
        eo = news.map (fun sr => Value.str sr.step_id)) ∧
    (res.success = false →
      ∃ pre fail, res.step_results = acc ++ pre ++ [fail] ∧
        (∀ sr ∈ pre, sr.status = "completed") ∧
        fail.status = "failed" ∧
        res.error = fail.error ∧
        eo.take pre.length = pre.map (fun sr => Value.str sr.step_id) ∧
        eo.get? pre.length = some (Value.str fail.step_id) ∧
        ∃ code msg, fail.error = some ("[" ++ code ++ "] " ++ msg) ∧
          (code = "STEP_NOT_FOUND" ∨ code = "UNRESOLVED_ATOM" ∨
           code = "UNRESOLVED_REF" ∨ code = "STEP_EXECUTION_ERROR") ∧
          (code = "STEP_EXECUTION_ERROR" →
            ∃ aid tn em,
              msg = "Atom \x27" ++ aid ++ "\x27 raised: " ++ tn ++ ": " ++ em)) := by
  intro eo
  induction eo with
  | nil =>
    intro ctx acc res h
    simp only [execLoop] at h
    cases h
    constructor
    · intro _
      exact ⟨rfl, [], by simp, by simp, by simp⟩
    · intro hs
      cases hs
  | cons v rest ih =>
    intro ctx acc res h
    cases v with
    | null => simp only [execLoop] at h; cases h
    | bool b => simp only [execLoop] at h; cases h
    | num n => simp only [execLoop] at h; cases h
    | arr l => simp only [execLoop] at h; cases h
    | obj m => simp only [execLoop] at h; cases h
    | str step_id =>
      simp only [execLoop] at h
      cases htbl : tbl.lookup step_id with
      | none =>
        rw [htbl] at h
        dsimp only at h
        cases h
        constructor
        · intro hs
          cases hs
        · intro _
          refine ⟨[], _, by simp, by simp, rfl, rfl, by simp, rfl, ?_⟩
          refine ⟨"STEP_NOT_FOUND",
            "Step \x27" ++ step_id ++ "\x27 from execution_order not found in plan.steps",
            rfl, Or.inl rfl, ?_⟩
          intro hq
          exact absurd hq (by decide)
      | some step =>
        rw [htbl] at h
        dsimp only at h
        cases hid : (step.lookup "id").getD (.str "") with
        | str atom_id =>
          rw [hid] at h
          dsimp only at h
          cases hrc : resolve_callable env atom_id with
          | error exc =>
            rw [hrc] at h
            dsimp only at h
            cases h
            constructor
            · intro hs
              cases hs
            · intro _
              refine ⟨[], _, by simp, by simp, rfl, rfl, by simp, rfl, ?_⟩
              refine ⟨exc.code, exc.message, rfl, ?_, ?_⟩
              · exact Or.inr (Or.inl (resolve_callable_error_code env atom_id exc hrc))
              · intro hq
                rw [resolve_callable_error_code env atom_id exc hrc] at hq
                exact absurd hq (by decide)
          | ok fn =>
            rw [hrc] at h
            dsimp only at h
            cases hio : pyOrDefault (step.lookup "inputs") (Value.obj []) with
            | obj inputs =>
              rw [hio] at h
              dsimp only at h
              cases hri : resolve_inputs inputs ctx [] with
              | error exc =>
                rw [hri] at h
                dsimp only at h
                cases h
                constructor
                · intro hs
                  cases hs
                · intro _
                  refine ⟨[], _, by simp, by simp, rfl, rfl, by simp, rfl, ?_⟩
                  refine ⟨exc.code, exc.message, rfl, ?_, ?_⟩
                  · exact Or.inr (Or.inr (Or.inl
                      (resolve_inputs_error_code inputs ctx [] exc hri)))
                  · intro hq
                    rw [resolve_inputs_error_code inputs ctx [] exc hri] at hq
                    exact absurd hq (by decide)
              | ok resolved =>
                rw [hri] at h
                dsimp only at h
                cases hfn : fn resolved with
                | error exc =>
                  rw [hfn] at h
                  dsimp only at h
                  cases h
                  constructor
                  · intro hs
                    cases hs
                  · intro _
                    refine ⟨[], _, by simp, by simp, rfl, rfl, by simp, rfl, ?_⟩
                    refine ⟨"STEP_EXECUTION_ERROR",
                      "Atom \x27" ++ atom_id ++ "\x27 raised: " ++ exc.type_name ++ ": " ++
                        exc.message, rfl, Or.inr (Or.inr (Or.inr rfl)), ?_⟩
                    intro _
                    exact ⟨atom_id, exc.type_name, exc.message, rfl⟩
                | ok return_value =>
                  rw [hfn] at h
                  dsimp only at h
                  obtain ⟨hT, hF⟩ := ih _ _ res h
                  constructor
                  · intro hs
                    obtain ⟨he, news, hsr, hstat, hmap⟩ := hT hs
                    refine ⟨he, ⟨step_id, atom_id, "completed",
                      map_outputs return_value (reg atom_id), none⟩ :: news, ?_, ?_, ?_⟩
                    · rw [hsr]
                      simp
                    · intro sr hsr2
                      rcases List.mem_cons.mp hsr2 with hh | htm
                      · rw [hh]
                      · exact hstat sr htm
                    · simp only [List.map_cons]
                      rw [← hmap]
                  · intro hs
                    obtain ⟨pre, fail, hsr, hstat, hfst, herr, htake, hget, hcode⟩ := hF hs
                    refine ⟨⟨step_id, atom_id, "completed",
                      map_outputs return_value (reg atom_id), none⟩ :: pre, fail,
                      ?_, ?_, hfst, herr, ?_, ?_, hcode⟩
                    · rw [hsr]
                      simp
                    · intro sr hsr2
                      rcases List.mem_cons.mp hsr2 with hh | htm
                      · rw [hh]
                      · exact hstat sr htm
                    · simp only [List.length_cons, List.take_succ_cons, List.map_cons]
                      rw [← htake]
                    · simp only [List.length_cons, List.get?_cons_succ]
                      exact hget
            | null => rw [hio] at h; cases h
            | bool b => rw [hio] at h; cases h
            | num n => rw [hio] at h; cases h
            | str s => rw [hio] at h; cases h
            | arr l => rw [hio] at h; cases h
        | null => rw [hid] at h; cases h
        | bool b => rw [hid] at h; cases h
        | num n => rw [hid] at h; cases h
        | arr l => rw [hid] at h; cases h
        | obj m => rw [hid] at h; cases h

/-- **C2.** `execute` walks `execution_order` sequentially: it succeeds only
when every id has produced a completed StepResult (in order), and at the
first fatal condition (step not found, atom unresolvable, reference
unresolvable, or an exception raised by the action — the latter caught and
recorded as `STEP_EXECUTION_ERROR` with the fault's type and message) it
appends one failed StepResult and returns `success = false` with exactly the
steps processed so far and the top-level error equal to the failing
StepResult's error. -/
theorem execute_sequential (pr : List (String × Value)) (reg : Registry)
    (env : ActionEnv) (validation : List (String × Value)) (eo : List Value)
    (res : ExecutionResult)
    (hv : pyOrDefault (pr.lookup "validation") (.obj []) = .obj validation)
    (heo : pyOrDefault (validation.lookup "execution_order") (.arr []) = .arr eo)
    (ht : pyTruthy ((validation.lookup "valid").getD .null) = true)
    (h : execute (.obj pr) reg env = some res) :
    (res.success = true →
      res.error = none ∧
      (∀ sr ∈ res.step_results, sr.status = "completed") ∧
      eo = res.step_results.map (fun sr => Value.str sr.step_id)) ∧
    (res.success = false →
      ∃ pre fail, res.step_results = pre ++ [fail] ∧
        (∀ sr ∈ pre, sr.status = "completed") ∧
        fail.status = "failed" ∧
        res.error = fail.error ∧
        eo.take pre.length = pre.map (fun sr => Value.str sr.step_id) ∧
        eo.get? pre.length = some (Value.str fail.step_id) ∧
        ∃ code msg, fail.error = some ("[" ++ code ++ "] " ++ msg) ∧
          (code = "STEP_NOT_FOUND" ∨ code = "UNRESOLVED_ATOM" ∨
           code = "UNRESOLVED_REF" ∨ code = "STEP_EXECUTION_ERROR") ∧
          (code = "STEP_EXECUTION_ERROR" →
            ∃ aid tn em,
              msg = "Atom \x27" ++ aid ++ "\x27 raised: " ++ tn ++ ": " ++ em)) := by
  simp only [execute] at h
  rw [hv] at h
  dsimp only at h
  rw [ht] at h
  simp only [Bool.not_true] at h
  rw [if_neg (by simp)] at h
  cases hpd : pyOrDefault (pr.lookup "plan") (Value.obj []) with
  | obj plan_doc =>
    rw [hpd] at h
    dsimp only at h
    cases hpl : pyOrDefault (plan_doc.lookup "plan") (Value.obj []) with
    | obj plan =>
      rw [hpl] at h
      dsimp only at h
      cases hst : pyOrDefault (plan.lookup "steps") (Value.arr []) with
      | arr steps =>
        rw [hst] at h
        dsimp only at h
        rw [heo] at h
        dsimp only at h
        cases htbl : build_step_lookup steps with
        | some tbl =>
          rw [htbl] at h
          dsimp only at h
          obtain ⟨hT, hF⟩ := execLoop_spec tbl reg env eo [] [] res h
          constructor
          · intro hs
            obtain ⟨he, news, hsr, hstat, hmap⟩ := hT hs
            simp only [List.nil_append] at hsr
            refine ⟨he, ?_, ?_⟩
            · rw [hsr]
              exact hstat
            · rw [hmap, hsr]
          · intro hs
            obtain ⟨pre, fail, hsr, hstat, hfst, herr, htake, hget, hcode⟩ := hF hs
            simp only [List.nil_append] at hsr
            exact ⟨pre, fail, hsr, hstat, hfst, herr, htake, hget, hcode⟩
        | none =>
          rw [htbl] at h
          cases h
      | null => rw [hst] at h; cases h
      | bool b => rw [hst] at h; cases h
      | num n => rw [hst] at h; cases h
      | str s => rw [hst] at h; cases h
      | obj m => rw [hst] at h; cases h
    | null => rw [hpl] at h; cases h
    | bool b => rw [hpl] at h; cases h
    | num n => rw [hpl] at h; cases h
    | str s => rw [hpl] at h; cases h
    | arr l => rw [hpl] at h; cases h
  | null => rw [hpd] at h; cases h
  | bool b => rw [hpd] at h; cases h
  | num n => rw [hpd] at h; cases h
  | str s => rw [hpd] at h; cases h
  | arr l => rw [hpd] at h; cases h

/-! Concrete executor run: step `s1` completes, then step `s2`\x27s action
raises and the run stops with a `STEP_EXECUTION_ERROR` failure. -/

def eSt1 : Value := Value.obj [("id", Value.str "pkg.dom.one"),
  ("target", Value.str "t"), ("inputs", Value.obj []), ("step_id", Value.str "s1")]

def eSt2 : Value := Value.obj [("id", Value.str "pkg.dom.two"),
  ("target", Value.str "t"), ("inputs", Value.obj []), ("step_id", Value.str "s2")]

def eVal : List (String × Value) := [("valid", Value.bool true),
  ("execution_order", Value.arr [Value.str "s1", Value.str "s2"])]

def ePR : List (String × Value) := [
  ("validation", Value.obj eVal),
  ("plan", Value.obj [("target", Value.str "goal"),
    ("plan", Value.obj [("steps", Value.arr [eSt1, eSt2])])])]

def eReg : Registry := fun aid =>
  if aid = "pkg.dom.one" then some ⟨[], ["o"]⟩
  else if aid = "pkg.dom.two" then some ⟨[], []⟩ else none

def eEnv : ActionEnv := fun aid =>
  if aid = "pkg.dom.one" then some (fun _ => Except.ok (Value.str "v"))
  else if aid = "pkg.dom.two" then some (fun _ => Except.error ⟨"ValueError", "boom"⟩)
  else none

def eRes : ExecutionResult := ⟨false,
  [⟨"s1", "pkg.dom.one", "completed", [("o", Value.str "v")], none⟩,
   ⟨"s2", "pkg.dom.two", "failed", [],
    some "[STEP_EXECUTION_ERROR] Atom \x27pkg.dom.two\x27 raised: ValueError: boom"⟩],
  some "[STEP_EXECUTION_ERROR] Atom \x27pkg.dom.two\x27 raised: ValueError: boom"⟩

theorem execute_sequential_witness :
    execute (Value.obj ePR) eReg eEnv = some eRes ∧
    ∃ pre fail, eRes.step_results = pre ++ [fail] ∧
      (∀ sr ∈ pre, sr.status = "completed") ∧
      fail.status = "failed" ∧
      eRes.error = fail.error ∧
      [Value.str "s1", Value.str "s2"].take pre.length =
        pre.map (fun sr => Value.str sr.step_id) ∧
      [Value.str "s1", Value.str "s2"].get? pre.length = some (Value.str fail.step_id) ∧
      ∃ code msg, fail.error = some ("[" ++ code ++ "] " ++ msg) ∧
        (code = "STEP_NOT_FOUND" ∨ code = "UNRESOLVED_ATOM" ∨
         code = "UNRESOLVED_REF" ∨ code = "STEP_EXECUTION_ERROR") ∧
        (code = "STEP_EXECUTION_ERROR" →
          ∃ aid tn em,
            msg = "Atom \x27" ++ aid ++ "\x27 raised: " ++ tn ++ ": " ++ em) :=
  ⟨rfl, (execute_sequential ePR eReg eEnv eVal [Value.str "s1", Value.str "s2"] eRes
      rfl rfl rfl rfl).2 rfl⟩
